import Mathlib

/-!
A verification development for the FlowShop repository: a proportional
flow-shop scheduling oracle (the WSPT-MCI insertion heuristic of
`src/FlowShopWSPTMCI.cpp`) and two outsourcing-budget selectors
(exhaustive bitmask enumeration and a budget-indexed dynamic program,
both in `src/FlowShopOutsource.cpp`), shallowly embedded.

Conventions of the embedding:
* C++ `long long` / `int` values are modelled as unbounded `Int`; the
  code relies on the absence of overflow, and the spec's properties are
  stated over mathematical integers.
* The `LLONG_MAX` (and `LLONG_MAX / 4`) "not yet set / unreachable"
  sentinels used by the best-so-far accumulators are modelled as
  `Option.none`.
* C++ exceptions (`std::invalid_argument`, `std::runtime_error`) are
  modelled with `Except Err`.
-/

namespace FlowShop

/-- `flowshop::Job` (FlowShopWSPTMCI.cpp): job id, processing time `p`
(identical on every machine), weight `w`. -/
structure Job where
  id : Int
  p : Int
  w : Int
deriving DecidableEq, Repr

/-- The two C++ exception kinds thrown by the sources:
`std::invalid_argument` and `std::runtime_error`. -/
inductive Err where
  | invalidArgument (msg : String)
  | runtimeError (msg : String)
deriving DecidableEq, Repr

/-- `flowshop::Solution` (FlowShopWSPTMCI.cpp): a schedule and its
objective `Σ w_j * C_j` on the last machine. -/
structure Solution where
  sequence : List Job
  objective : Int
deriving DecidableEq, Repr

/-- Loop of `computeObjectiveClosedForm` (FlowShopWSPTMCI.cpp:29-42) with
the running state (`sumP`, `maxP`) made explicit; returns the objective
contribution of the remaining jobs.  The C++ updates `maxP` by
`if (job.p > maxP) maxP = job.p`, i.e. `max maxP job.p`. -/
def closedFormFrom (m sumP maxP : Int) : List Job → Int
  | [] => 0
  | job :: rest =>
    let sumP2 := sumP + job.p
    let maxP2 := max maxP job.p
    job.w * (sumP2 + (m - 1) * maxP2) + closedFormFrom m sumP2 maxP2 rest

/-- The value computed by `computeObjectiveClosedForm` after its `m ≤ 0`
check passed: the loop starts with `sumP = 0`, `maxP = 0`, `obj = 0`. -/
def closedForm (seq : List Job) (m : Int) : Int := closedFormFrom m 0 0 seq

/-- `computeObjectiveClosedForm` (FlowShopWSPTMCI.cpp:29-42), including
its invalid-argument throw on `m ≤ 0`. -/
def computeObjectiveClosedForm (seq : List Job) (m : Int) : Except Err Int :=
  if m ≤ 0 then .error (.invalidArgument "m must be positive")
  else .ok (closedForm seq m)

/-- Processing time `seq[i].p` (defaulting to 0 out of range; every use
below is in range). -/
def pAt (seq : List Job) (i : Nat) : Int := (seq.getD i ⟨0, 0, 0⟩).p

/-- Weight `seq[i].w` (defaulting to 0 out of range). -/
def wAt (seq : List Job) (i : Nat) : Int := (seq.getD i ⟨0, 0, 0⟩).w

/-- The table of `computeObjectiveDP` (FlowShopWSPTMCI.cpp:48-66):
`C[i][k] = max(up, left) + seq[i].p` where `up`/`left` are 0 at the
boundary. -/
def Ctab (seq : List Job) : Nat → Nat → Int
  | 0, 0 => pAt seq 0
  | 0, k + 1 => max 0 (Ctab seq 0 k) + pAt seq 0
  | i + 1, 0 => max (Ctab seq i 0) 0 + pAt seq (i + 1)
  | i + 1, k + 1 => max (Ctab seq i (k + 1)) (Ctab seq (i + 1) k) + pAt seq (i + 1)

/-- `computeObjectiveDP` (FlowShopWSPTMCI.cpp:48-66): `Σ_i w_i * C[i][m-1]`.
The code accesses column `m-1`, which exists for `m ≥ 1`. -/
def computeObjectiveDP (seq : List Job) (m : Int) : Int :=
  ∑ i ∈ Finset.range seq.length, wAt seq i * Ctab seq i (m - 1).toNat

/-- Prefix sum of processing times over positions `0..i`. -/
def prefS (seq : List Job) : Nat → Int
  | 0 => pAt seq 0
  | i + 1 => prefS seq i + pAt seq (i + 1)

/-- Running maximum of processing times over positions `0..i`, with the
code's initial value `maxP = 0`. -/
def prefM (seq : List Job) : Nat → Int
  | 0 => max 0 (pAt seq 0)
  | i + 1 => max (prefM seq i) (pAt seq (i + 1))

/-- The comparator lambda passed to `std::stable_sort`
(FlowShopWSPTMCI.cpp:121-127): `a` strictly precedes `b` when
`a.w * b.p > b.w * a.p` (strictly decreasing ratio `w/p`, compared by
cross-multiplication; the `__int128` products are exact, as is `Int`),
and on an exact ratio tie when `a.p < b.p`. -/
def wsptLt (a b : Job) : Bool :=
  if a.w * b.p ≠ b.w * a.p then decide (b.w * a.p < a.w * b.p)
  else decide (a.p < b.p)

/-- The non-strict order realized by `std::stable_sort` with strict
comparator `wsptLt`: `a` may stay before `b` iff `b` does not strictly
precede `a`. -/
def wsptLe (a b : Job) : Bool := ! wsptLt b a

/-- Stable insertion of `x` into `l`: before the first `y` with
`le x y`. -/
def stableInsert (le : Job → Job → Bool) (x : Job) : List Job → List Job
  | [] => [x]
  | y :: ys => if le x y then x :: y :: ys else y :: stableInsert le x ys

/-- Model of `std::stable_sort`: a stable sort by the non-strict order
`le` (insertion sort, which is stable and agrees with every stable sort
whenever the underlying strict comparator is a strict weak order, the
precondition of `std::stable_sort`). -/
def stableSort (le : Job → Job → Bool) : List Job → List Job
  | [] => []
  | x :: xs => stableInsert le x (stableSort le xs)

/-- `candidate.insert(candidate.begin() + pos, newJob)`
(FlowShopWSPTMCI.cpp:141); every use has `pos ≤ length`. -/
def insertAt : Nat → Job → List Job → List Job
  | 0, x, l => x :: l
  | _ + 1, x, [] => [x]
  | p + 1, x, y :: ys => y :: insertAt p x ys

/-- One step of the insertion-position scan of `solveWSPT_MCI`
(FlowShopWSPTMCI.cpp:139-150): track `(bestObj, bestPos)`, updating on a
strictly smaller objective, or on an equal objective at a strictly later
position.  `f pos` is the candidate objective at `pos`; the initial
`bestObj = LLONG_MAX` is modelled as `none`. -/
def scanStep (f : Nat → Int) (best : Option Int × Nat) (pos : Nat) :
    Option Int × Nat :=
  let obj := f pos
  let takeIt : Bool :=
    match best.1 with
    | none => true
    | some bo => decide (obj < bo) || (decide (obj = bo) && decide (best.2 < pos))
  if takeIt then (some obj, pos) else best

/-- The full scan over positions `0..S.length` (FlowShopWSPTMCI.cpp:135-150)
for inserting `newJob` into the partial sequence `S`. -/
def mciScan (m : Int) (S : List Job) (newJob : Job) : Option Int × Nat :=
  (List.range (S.length + 1)).foldl
    (scanStep fun pos => closedForm (insertAt pos newJob S) m) (none, 0)

/-- `S.insert(S.begin() + bestPos, newJob)` (FlowShopWSPTMCI.cpp:152). -/
def mciInsert (m : Int) (S : List Job) (newJob : Job) : List Job :=
  insertAt (mciScan m S newJob).2 newJob S

/-- The sequence built by `solveWSPT_MCI` (FlowShopWSPTMCI.cpp:121-157):
stable-sort by the WSPT comparator, seed with the first sorted job, then
insert each remaining job at its scanned best position. -/
def wsptSequence (jobs : List Job) (m : Int) : List Job :=
  match stableSort wsptLe jobs with
  | [] => []
  | j0 :: rest => rest.foldl (mciInsert m) [j0]

/-- `solveWSPT_MCI` (FlowShopWSPTMCI.cpp:115-171): the two
invalid-argument throws, the construction, and the optional `verifyDP`
cross-check (a `std::runtime_error` on a mismatch). -/
def solveWSPT_MCI (jobs : List Job) (m : Int) (verifyDP : Bool) :
    Except Err Solution :=
  if m ≤ 0 then .error (.invalidArgument "m must be positive")
  else if jobs.isEmpty then .error (.invalidArgument "jobs list is empty")
  else if verifyDP && decide (computeObjectiveDP (wsptSequence jobs m) m ≠
      closedForm (wsptSequence jobs m) m) then
    .error (.runtimeError
      "Verification failed: DP objective != closed-form objective")
  else .ok ⟨wsptSequence jobs m, closedForm (wsptSequence jobs m) m⟩

/-- The objective value the oracle reports for a job set (0 for the
empty set: `closedForm [] m = 0`, matching `getObjectiveOnly`). -/
def oracleObjective (jobs : List Job) (m : Int) : Int :=
  closedForm (wsptSequence jobs m) m

/-- `flowshop_ext::getObjectiveOnly` (FlowShopOutsource.cpp:35-45):
0 for an empty job list without calling the oracle, otherwise the
oracle's objective (run with `verifyDP = false`), propagating the
oracle's exception. -/
def getObjectiveOnly (jobs : List Job) (m : Int) : Except Err Int :=
  if jobs.isEmpty then .ok 0
  else (solveWSPT_MCI jobs m false).map Solution.objective

instance {ε α : Type} [DecidableEq ε] [DecidableEq α] :
    DecidableEq (Except ε α) := fun x y =>
  match x, y with
  | .error a, .error b =>
    if h : a = b then .isTrue (congrArg Except.error h)
    else .isFalse fun hc => h (Except.error.inj hc)
  | .error _, .ok _ => .isFalse fun hc => Except.noConfusion hc
  | .ok _, .error _ => .isFalse fun hc => Except.noConfusion hc
  | .ok a, .ok b =>
    if h : a = b then .isTrue (congrArg Except.ok h)
    else .isFalse fun hc => h (Except.ok.inj hc)

/-- `flowshop_ext::NaiveResult` (FlowShopOutsource.cpp:13-18), the common
result shape of both selectors. -/
structure NaiveResult where
  objective : Int
  inhouseOrder : List Job
  outsourced : List Job
  outsourcingCost : Int
deriving DecidableEq, Repr

/-- `flowshop_ext::DPState` (FlowShopOutsource.cpp:20-23); the
`LLONG_MAX / 4` sentinel `INF` is modelled as `none`. -/
structure DPState where
  objective : Option Int
  inhouseJobs : List Job
deriving DecidableEq, Repr

/-- In-house jobs of a bitmask subset (FlowShopOutsource.cpp:189-196):
bit `j` of `mask` set keeps `jobs[j]` in-house, in index order.  The
recursion consumes the low bit first. -/
def maskInhouse : List Job → Nat → List Job
  | [], _ => []
  | j :: rest, mask =>
    if mask % 2 = 1 then j :: maskInhouse rest (mask / 2)
    else maskInhouse rest (mask / 2)

/-- Outsourced jobs of a bitmask subset (bit unset), in index order. -/
def maskOutsourced : List Job → Nat → List Job
  | [], _ => []
  | j :: rest, mask =>
    if mask % 2 = 1 then maskOutsourced rest (mask / 2)
    else j :: maskOutsourced rest (mask / 2)

/-- Total outsourcing cost of a bitmask subset: the costs at unset bits. -/
def maskOutCost : List Int → Nat → Int
  | [], _ => 0
  | c :: rest, mask =>
    if mask % 2 = 1 then maskOutCost rest (mask / 2)
    else c + maskOutCost rest (mask / 2)

/-- The candidate record a mask contributes in `solveNaiveDetailed`
(FlowShopOutsource.cpp:200-213): the oracle's objective and order on the
in-house subset (objective 0 and empty order for the empty subset, with
no oracle call — `oracleObjective [] m = 0` and `wsptSequence [] m = []`
match that), the outsourced jobs, and their total cost. -/
def maskRecord (jobs : List Job) (costs : List Int) (m : Int) (mask : Nat) :
    NaiveResult :=
  ⟨oracleObjective (maskInhouse jobs mask) m,
    wsptSequence (maskInhouse jobs mask) m,
    maskOutsourced jobs mask, maskOutCost costs mask⟩

/-- One iteration of the enumeration loop of `solveNaiveDetailed`
(FlowShopOutsource.cpp:181-214): skip the mask when its outsourcing cost
exceeds `U` (`if (currentOutsourceCost > U) continue`), otherwise keep
the record with the strictly smallest objective seen so far; the
`LLONG_MAX` initial best objective is modelled as `none`. -/
def naiveStep (jobs : List Job) (costs : List Int) (m U : Int)
    (best : Option NaiveResult) (mask : Nat) : Option NaiveResult :=
  if U < maskOutCost costs mask then best
  else
    match best with
    | none => some (maskRecord jobs costs m mask)
    | some b =>
      if (maskRecord jobs costs m mask).objective < b.objective then
        some (maskRecord jobs costs m mask)
      else best

/-- The full enumeration loop of `solveNaiveDetailed` over all `2^n`
masks (FlowShopOutsource.cpp:180-214). -/
def naiveFold (jobs : List Job) (costs : List Int) (m U : Int) :
    Option NaiveResult :=
  (List.range (2 ^ jobs.length)).foldl (naiveStep jobs costs m U) none

/-- The total cost of the outsourced jobs of a result: the sum, over the
input (job, cost) pairs, of the costs of the jobs whose id belongs to
`outIds`. -/
def sumCostsOf (jobs : List Job) (costs : List Int) (outIds : List Int) :
    Int :=
  (((jobs.zip costs).filter fun jc => decide (jc.1.id ∈ outIds)).map
    Prod.snd).sum

/-- `solveNaiveDetailed` (FlowShopOutsource.cpp:164-225): the two
validations, the mask enumeration, and the all-outsourced fallback when
no mask was within budget.  The loop calls the oracle — which throws
`invalid_argument "m must be positive"` — as soon as `m ≤ 0` and some
within-budget mask has a non-empty in-house subset; that mid-loop throw
is modelled by the third guard. -/
def solveNaiveDetailed (jobs : List Job) (costs : List Int) (m U : Int) :
    Except Err NaiveResult :=
  if jobs.length ≠ costs.length then
    .error (.invalidArgument "outsourcingCosts size must match allJobs size")
  else if 63 ≤ jobs.length then
    .error (.invalidArgument
      "solveNaiveDetailed supports up to 62 jobs (bitmask brute force)")
  else if m ≤ 0 ∧ ∃ mask ∈ List.range (2 ^ jobs.length),
      maskInhouse jobs mask ≠ [] ∧ maskOutCost costs mask ≤ U then
    .error (.invalidArgument "m must be positive")
  else
    .ok (match naiveFold jobs costs m U with
      | some best => best
      | none => ⟨0, [], jobs, costs.sum⟩)

/-- Option 1 of the DP transition (keep job `i` in-house,
FlowShopOutsource.cpp:95-105): append `jobs[i]` to the previous cell's
in-house set and re-evaluate the whole set through the oracle; an
unreachable previous cell (`INF`, i.e. `none`) leaves `best` at its
initial unreachable state with an empty set. -/
def dpKeep (jobs : List Job) (m : Int) (i : Nat) (prev : DPState) : DPState :=
  match prev.objective with
  | none => ⟨none, []⟩
  | some _ =>
    ⟨some (oracleObjective (prev.inhouseJobs ++ [jobs.getD i ⟨0, 0, 0⟩]) m),
      prev.inhouseJobs ++ [jobs.getD i ⟨0, 0, 0⟩]⟩

/-- Option 2 of the DP transition (outsource job `i`,
FlowShopOutsource.cpp:107-114): the reachable cell at the reduced cap
beats the keep option `best1` only on a strictly smaller objective. -/
def dpCombine (prevOut : DPState) (best1 : DPState) : DPState :=
  match prevOut.objective, best1.objective with
  | some oo, some bo => if oo < bo then ⟨some oo, prevOut.inhouseJobs⟩ else best1
  | some oo, none => ⟨some oo, prevOut.inhouseJobs⟩
  | none, _ => best1

/-- The DP table of `solveDP` (FlowShopOutsource.cpp:78-118):
`dpCell jobs costs m i c` is `dp[i][c]`.  Base row: objective 0, empty
in-house set, for every cap.  Row `i+1` for job `jobs[i]` with cost
`u = costs[i]`: the keep option, combined — when `u ≤ c` — with the
outsource option taken from the cell at cap `c - u`. -/
def dpCell (jobs : List Job) (costs : List Int) (m : Int) :
    Nat → Nat → DPState
  | 0, _ => ⟨some 0, []⟩
  | i + 1, c =>
    if costs.getD i 0 ≤ (c : Int) then
      dpCombine (dpCell jobs costs m i ((c : Int) - costs.getD i 0).toNat)
        (dpKeep jobs m i (dpCell jobs costs m i c))
    else dpKeep jobs m i (dpCell jobs costs m i c)

/-- `solveDP` (FlowShopOutsource.cpp:58-154): validations (cost-list
length, `U ≥ 0`, non-negative individual costs; the oracle's
`m must be positive` throw fires on the first DP transition when `m ≤ 0`
and at least one job exists), the DP table read at `dp[n][U]`, the final
re-sequencing of the winning in-house set through the oracle, and the
reconstruction of the outsourced list and spent cost by job id. -/
def solveDP (jobs : List Job) (costs : List Int) (m U : Int) :
    Except Err NaiveResult :=
  if jobs.length ≠ costs.length then
    .error (.invalidArgument "outsourcingCosts size must match allJobs size")
  else if U < 0 then .error (.invalidArgument "U must be non-negative")
  else if ∃ c ∈ costs, c < 0 then
    .error (.invalidArgument "outsourcingCosts must be non-negative")
  else if m ≤ 0 ∧ jobs ≠ [] then
    .error (.invalidArgument "m must be positive")
  else
    let bestState := dpCell jobs costs m jobs.length U.toNat
    let obj0 : Int := match bestState.objective with | none => 0 | some v => v
    let objective :=
      if bestState.inhouseJobs.isEmpty then obj0
      else oracleObjective bestState.inhouseJobs m
    let inhouseOrder :=
      if bestState.inhouseJobs.isEmpty then ([] : List Job)
      else wsptSequence bestState.inhouseJobs m
    let inIds := bestState.inhouseJobs.map Job.id
    let outsourced := jobs.filter fun j => decide (j.id ∉ inIds)
    let outCost := ((jobs.zip costs).filter fun jc =>
      decide (jc.1.id ∉ inIds)).foldl (fun s jc => s + jc.2) 0
    .ok ⟨objective, inhouseOrder, outsourced, outCost⟩

/-- `Err` classifier: is this a `std::invalid_argument`? -/
def Err.isInvalidArg : Err → Bool
  | .invalidArgument _ => true
  | .runtimeError _ => false

/-- Does the computation fail with a `std::invalid_argument`? -/
def failsInvalidArg {α : Type} : Except Err α → Bool
  | .error e => e.isInvalidArg
  | .ok _ => false

/-- Reference comparator following the words of spec §4.2 step 1 (claim
C3): `a` sorts strictly before `b` when its ratio `w/p` is strictly
larger, compared via cross-multiplication (`w_a * p_b` vs `w_b * p_a`);
on an exact ratio tie, when its processing time is strictly smaller. -/
def specPrecedes (a b : Job) : Bool :=
  if a.w * b.p = b.w * a.p then decide (a.p < b.p)
  else decide (b.w * a.p < a.w * b.p)

/-- Reference stable sort of spec §4.2 step 1: a stable sort keeping `a`
before `b` whenever `b` does not strictly precede `a`. -/
def specSort (jobs : List Job) : List Job :=
  stableSort (fun a b => ! specPrecedes b a) jobs

/-- Reference insertion position of spec §4.2 step 3: among insertion
positions `0..S.length`, those minimizing the closed-form objective of
the resulting sequence; the largest such index is chosen. -/
def specBestPos (S : List Job) (j : Job) (m : Int) : Nat :=
  ((List.range (S.length + 1)).filter fun pos =>
    (List.range (S.length + 1)).all fun q =>
      decide (closedForm (insertAt pos j S) m ≤
        closedForm (insertAt q j S) m)).foldr max 0

/-- Reference algorithm of spec §4.2 (claim C3): stable-sort by strictly
decreasing ratio, seed with the first sorted job, then insert each
remaining job in order at the reference position. -/
def specWSPT_MCI (jobs : List Job) (m : Int) : List Job :=
  match specSort jobs with
  | [] => []
  | j0 :: rest =>
    rest.foldl (fun S j => insertAt (specBestPos S j m) j S) [j0]

theorem prefM_nonneg (seq : List Job) (i : Nat) : 0 ≤ prefM seq i := by
  induction i with
  | zero => exact le_max_left _ _
  | succ i ih => exact le_trans ih (le_max_left _ _)

theorem pAt_nonneg (seq : List Job) (hp : ∀ j ∈ seq, 0 ≤ j.p) (i : Nat) :
    0 ≤ pAt seq i := by
  unfold pAt
  rcases lt_or_le i seq.length with h | h
  · rw [List.getD_eq_getElem _ _ h]
    exact hp _ (seq.getElem_mem h)
  · rw [List.getD_eq_default _ _ h]

theorem prefS_nonneg (seq : List Job) (hp : ∀ j ∈ seq, 0 ≤ j.p) (i : Nat) :
    0 ≤ prefS seq i := by
  induction i with
  | zero => exact pAt_nonneg seq hp 0
  | succ i ih => exact add_nonneg ih (pAt_nonneg seq hp (i + 1))

theorem pAt_le_prefM (seq : List Job) (i : Nat) : pAt seq i ≤ prefM seq i := by
  cases i with
  | zero => exact le_max_right _ _
  | succ i => exact le_max_right _ _

theorem prefM_eq_pAt (seq : List Job) (hp : ∀ j ∈ seq, 0 ≤ j.p) :
    prefM seq 0 = pAt seq 0 := by
  unfold prefM
  exact max_eq_right (pAt_nonneg seq hp 0)

/-- The DP table in closed form: `C[i][k] = prefS i + k * prefM i`,
for non-negative processing times and an in-range row index. -/
theorem Ctab_closed (seq : List Job) (hp : ∀ j ∈ seq, 0 ≤ j.p) :
    ∀ i k, Ctab seq i k = prefS seq i + (k : Int) * prefM seq i := by
  intro i
  induction i with
  | zero =>
    intro k
    induction k with
    | zero => simp [Ctab, prefS]
    | succ k ihk =>
      rw [Ctab, ihk, prefM_eq_pAt seq hp]
      have h0 : (0 : Int) ≤ prefS seq 0 + (k : Int) * pAt seq 0 :=
        add_nonneg (prefS_nonneg seq hp 0)
          (mul_nonneg (Int.ofNat_nonneg k) (pAt_nonneg seq hp 0))
      rw [max_eq_right h0]
      simp [prefS]
      ring
  | succ i ihi =>
    intro k
    induction k with
    | zero =>
      rw [Ctab, ihi 0]
      simp only [Nat.cast_zero, zero_mul, add_zero]
      rw [max_eq_left (prefS_nonneg seq hp i)]
      rw [show prefS seq (i + 1) = prefS seq i + pAt seq (i + 1) from rfl]
    | succ k ihk =>
      rw [Ctab, ihi (k + 1), ihk]
      have hM : prefM seq (i + 1) = max (prefM seq i) (pAt seq (i + 1)) := rfl
      rcases le_total (pAt seq (i + 1)) (prefM seq i) with hle | hle
      · have hMe : prefM seq (i + 1) = prefM seq i := by
          rw [hM, max_eq_left hle]
        rw [hMe]
        have harg : prefS seq (i + 1) + (k : Int) * prefM seq i ≤
            prefS seq i + ((k : Int) + 1) * prefM seq i := by
          simp only [prefS]
          nlinarith [hle]
        rw [show ((k + 1 : Nat) : Int) = (k : Int) + 1 by push_cast; ring]
        rw [max_eq_left harg]
        simp only [prefS]
        ring
      · have hMe : prefM seq (i + 1) = pAt seq (i + 1) := by
          rw [hM, max_eq_right hle]
        rw [hMe]
        have harg : prefS seq i + ((k : Int) + 1) * prefM seq i ≤
            prefS seq (i + 1) + (k : Int) * pAt seq (i + 1) := by
          simp only [prefS]
          nlinarith [hle, Int.ofNat_nonneg k]
        rw [show ((k + 1 : Nat) : Int) = (k : Int) + 1 by push_cast; ring]
        rw [max_eq_right harg]
        simp only [prefS]
        ring

theorem wAt_cons_succ (j : Job) (rest : List Job) (i : Nat) :
    wAt (j :: rest) (i + 1) = wAt rest i := rfl

theorem pAt_cons_succ (j : Job) (rest : List Job) (i : Nat) :
    pAt (j :: rest) (i + 1) = pAt rest i := rfl

theorem prefS_cons_succ (j : Job) (rest : List Job) :
    ∀ i, prefS (j :: rest) (i + 1) = j.p + prefS rest i := by
  intro i
  induction i with
  | zero => simp [prefS, pAt]
  | succ i ih =>
    rw [show prefS (j :: rest) (i + 1 + 1) =
      prefS (j :: rest) (i + 1) + pAt (j :: rest) (i + 2) from rfl, ih]
    rw [pAt_cons_succ]
    rw [show prefS rest (i + 1) = prefS rest i + pAt rest (i + 1) from rfl]
    ring

theorem prefM_cons_succ (j : Job) (rest : List Job) :
    ∀ i, prefM (j :: rest) (i + 1) = max (max 0 j.p) (prefM rest i) := by
  intro i
  induction i with
  | zero =>
    show max (prefM (j :: rest) 0) (pAt (j :: rest) 1) = _
    rw [show prefM (j :: rest) 0 = max 0 (pAt (j :: rest) 0) from rfl]
    rw [pAt_cons_succ]
    rw [show pAt (j :: rest) 0 = j.p from rfl]
    rw [show prefM rest 0 = max 0 (pAt rest 0) from rfl]
    rw [← max_assoc, max_comm (max 0 j.p) 0, ← max_assoc]
    simp [max_assoc]
  | succ i ih =>
    show max (prefM (j :: rest) (i + 1)) (pAt (j :: rest) (i + 2)) = _
    rw [ih, pAt_cons_succ]
    rw [show prefM rest (i + 1) = max (prefM rest i) (pAt rest (i + 1)) from rfl]
    rw [max_assoc]

/-- The closed-form loop as an indexed sum, with general starting state
(`s`, `mx`), provided the starting maximum is non-negative (as the
code's initial `maxP = 0` is). -/
theorem closedFormFrom_eq_sum (m : Int) :
    ∀ (seq : List Job) (s mx : Int), 0 ≤ mx →
      closedFormFrom m s mx seq =
        ∑ i ∈ Finset.range seq.length,
          wAt seq i * ((s + prefS seq i) + (m - 1) * max mx (prefM seq i)) := by
  intro seq
  induction seq with
  | nil => intro s mx _; simp [closedFormFrom]
  | cons j rest ih =>
    intro s mx hmx
    have hmx' : 0 ≤ max mx j.p := le_trans hmx (le_max_left _ _)
    rw [show closedFormFrom m s mx (j :: rest) =
      j.w * ((s + j.p) + (m - 1) * max mx j.p) +
        closedFormFrom m (s + j.p) (max mx j.p) rest from rfl]
    rw [ih (s + j.p) (max mx j.p) hmx']
    rw [show (j :: rest).length = rest.length + 1 from rfl]
    rw [Finset.sum_range_succ']
    have h0 : wAt (j :: rest) 0 *
        ((s + prefS (j :: rest) 0) + (m - 1) * max mx (prefM (j :: rest) 0)) =
        j.w * ((s + j.p) + (m - 1) * max mx j.p) := by
      have hw0 : wAt (j :: rest) 0 = j.w := rfl
      have hs0 : prefS (j :: rest) 0 = j.p := rfl
      have hM0 : prefM (j :: rest) 0 = max 0 j.p := rfl
      rw [hw0, hs0, hM0, ← max_assoc, max_eq_left hmx]
    rw [h0]
    have hterm : ∀ i ∈ Finset.range rest.length,
        wAt (j :: rest) (i + 1) *
          ((s + prefS (j :: rest) (i + 1)) +
            (m - 1) * max mx (prefM (j :: rest) (i + 1))) =
        wAt rest i *
          (((s + j.p) + prefS rest i) +
            (m - 1) * max (max mx j.p) (prefM rest i)) := by
      intro i _
      rw [wAt_cons_succ, prefS_cons_succ, prefM_cons_succ]
      rw [← max_assoc, ← max_assoc, max_comm mx 0, max_eq_right hmx]
      ring_nf
    rw [Finset.sum_congr rfl hterm]
    ring

/-- `closedForm` as an indexed sum. -/
theorem closedForm_eq_sum (seq : List Job) (m : Int) :
    closedForm seq m =
      ∑ i ∈ Finset.range seq.length,
        wAt seq i * (prefS seq i + (m - 1) * prefM seq i) := by
  rw [closedForm, closedFormFrom_eq_sum m seq 0 0 le_rfl]
  refine Finset.sum_congr rfl fun i _ => ?_
  rw [zero_add, max_eq_right (prefM_nonneg seq i)]

/-- C2: for every job sequence with non-negative processing times and
weights and every machine count `m ≥ 1`, `computeObjectiveClosedForm`
returns (without error) exactly the value of the table-based recurrence
`computeObjectiveDP`. -/
theorem closedForm_eq_tableObjective (seq : List Job) (m : Int)
    (hm : 1 ≤ m) (hp : ∀ j ∈ seq, 0 ≤ j.p) (_hw : ∀ j ∈ seq, 0 ≤ j.w) :
    computeObjectiveClosedForm seq m = .ok (computeObjectiveDP seq m) := by
  rw [computeObjectiveClosedForm, if_neg (by omega)]
  refine congrArg Except.ok ?_
  rw [closedForm_eq_sum, computeObjectiveDP]
  refine Finset.sum_congr rfl fun i _ => ?_
  rw [Ctab_closed seq hp i (m - 1).toNat]
  rw [Int.toNat_of_nonneg (by omega)]

/-- Witness for C2 at a concrete sequence and `m = 2`. -/
theorem closedForm_eq_tableObjective_witness :
    ((1 : Int) ≤ 2 ∧ (∀ j ∈ [Job.mk 0 2 3, Job.mk 1 1 4], 0 ≤ j.p) ∧
      (∀ j ∈ [Job.mk 0 2 3, Job.mk 1 1 4], 0 ≤ j.w)) ∧
    computeObjectiveClosedForm [Job.mk 0 2 3, Job.mk 1 1 4] 2 =
      .ok (computeObjectiveDP [Job.mk 0 2 3, Job.mk 1 1 4] 2) :=
  ⟨⟨by decide, by decide, by decide⟩,
    closedForm_eq_tableObjective _ 2 (by decide) (by decide) (by decide)⟩

/-- On success, `solveWSPT_MCI` returns exactly the constructed sequence
and its closed-form objective. -/
theorem solveWSPT_MCI_ok (jobs : List Job) (m : Int) (verifyDP : Bool)
    (sol : Solution) (h : solveWSPT_MCI jobs m verifyDP = .ok sol) :
    sol = ⟨wsptSequence jobs m, closedForm (wsptSequence jobs m) m⟩ := by
  unfold solveWSPT_MCI at h
  split at h
  · exact absurd h (by simp)
  · split at h
    · exact absurd h (by simp)
    · split at h
      · exact absurd h (by simp)
      · exact (Except.ok.inj h).symm

/-- With `verifyDP = false` and valid arguments, `solveWSPT_MCI`
succeeds. -/
theorem solveWSPT_MCI_ok_of_valid (jobs : List Job) (m : Int)
    (hne : jobs ≠ []) (hm : 1 ≤ m) :
    solveWSPT_MCI jobs m false =
      .ok ⟨wsptSequence jobs m, closedForm (wsptSequence jobs m) m⟩ := by
  unfold solveWSPT_MCI
  rw [if_neg (by omega), if_neg (by simpa using hne)]
  simp

/-- C8: `solveWSPT_MCI` fails with an invalid-argument error iff the job
list is empty or `m ≤ 0` (whatever `verifyDP` is); `getObjectiveOnly`
returns 0 for an empty job set, and the oracle's objective for every
non-empty job set with `m ≥ 1`. -/
theorem solveWSPT_MCI_invalidArg_iff (jobs : List Job) (m : Int)
    (verifyDP : Bool) :
    (failsInvalidArg (solveWSPT_MCI jobs m verifyDP) = true ↔
      (jobs = [] ∨ m ≤ 0)) ∧
    (jobs = [] → getObjectiveOnly jobs m = .ok 0) ∧
    (jobs ≠ [] → 1 ≤ m →
      getObjectiveOnly jobs m = .ok (oracleObjective jobs m)) := by
  refine ⟨?_, ?_, ?_⟩
  · unfold solveWSPT_MCI
    by_cases hm : m ≤ 0
    · simp [hm, failsInvalidArg, Err.isInvalidArg]
    · by_cases hj : jobs.isEmpty
      · simp [hm, hj, failsInvalidArg, Err.isInvalidArg,
          List.isEmpty_iff.mp hj]
      · rw [if_neg hm, if_neg (by simpa using hj)]
        have hne : ¬ jobs = [] := by simpa using hj
        split
        · simp [failsInvalidArg, Err.isInvalidArg, hne, hm]
        · simp [failsInvalidArg, hne, hm]
  · intro h
    simp [getObjectiveOnly, h]
  · intro hne hm
    rw [getObjectiveOnly, if_neg (by simpa using hne)]
    rw [solveWSPT_MCI_ok_of_valid jobs m hne hm]
    rfl

/-- Witness for C8 on a concrete one-job input with `m = 2`. -/
theorem solveWSPT_MCI_invalidArg_iff_witness :
    (([Job.mk 0 2 3] ≠ ([] : List Job)) ∧ (1 : Int) ≤ 2) ∧
    getObjectiveOnly [Job.mk 0 2 3] 2 =
      .ok (oracleObjective [Job.mk 0 2 3] 2) :=
  ⟨⟨by decide, by decide⟩,
    (solveWSPT_MCI_invalidArg_iff [Job.mk 0 2 3] 2 false).2.2
      (by decide) (by decide)⟩

theorem stableInsert_perm (le : Job → Job → Bool) (x : Job) :
    ∀ l : List Job, List.Perm (stableInsert le x l) (x :: l) := by
  intro l
  induction l with
  | nil => exact List.Perm.refl _
  | cons y ys ih =>
    rw [stableInsert]
    split
    · exact List.Perm.refl _
    · exact (ih.cons y).trans (List.Perm.swap x y ys)

theorem stableSort_perm (le : Job → Job → Bool) :
    ∀ l : List Job, List.Perm (stableSort le l) l := by
  intro l
  induction l with
  | nil => exact List.Perm.refl _
  | cons x xs ih =>
    rw [stableSort]
    exact (stableInsert_perm le x (stableSort le xs)).trans (ih.cons x)

theorem insertAt_perm : ∀ (pos : Nat) (x : Job) (l : List Job),
    List.Perm (insertAt pos x l) (x :: l)
  | 0, _, _ => List.Perm.refl _
  | _ + 1, _, [] => List.Perm.refl _
  | p + 1, x, y :: ys =>
    ((insertAt_perm p x ys).cons y).trans (List.Perm.swap x y ys)

theorem foldl_mciInsert_perm (m : Int) :
    ∀ (rest : List Job) (S : List Job),
      List.Perm (rest.foldl (mciInsert m) S) (rest ++ S) := by
  intro rest
  induction rest with
  | nil => intro S; exact List.Perm.refl _
  | cons r rs ih =>
    intro S
    rw [List.foldl_cons]
    refine (ih (mciInsert m S r)).trans ?_
    refine (List.Perm.append_left rs (insertAt_perm _ r S)).trans ?_
    exact List.perm_middle

/-- The sequence the oracle builds is a permutation of its input. -/
theorem wsptSequence_perm (jobs : List Job) (m : Int) :
    List.Perm (wsptSequence jobs m) jobs := by
  have hs := stableSort_perm wsptLe jobs
  rw [wsptSequence]
  cases h : stableSort wsptLe jobs with
  | nil =>
    rw [h] at hs
    have : jobs = [] := hs.symm.eq_nil
    simp [this]
  | cons j0 rest =>
    rw [h] at hs
    refine (foldl_mciInsert_perm m rest [j0]).trans ?_
    refine List.Perm.trans ?_ hs
    exact List.perm_middle.trans (by rw [List.append_nil])

/-- C4: on success (non-empty input, `m ≥ 1`, either `verifyDP`), the
sequence returned by `solveWSPT_MCI` is a permutation of the input job
list — same multiset of job records, hence same ids and p/w pairs, no
job invented or dropped. -/
theorem solveWSPT_MCI_returns_permutation (jobs : List Job) (m : Int)
    (verifyDP : Bool) (_hne : jobs ≠ []) (_hm : 1 ≤ m) (sol : Solution)
    (h : solveWSPT_MCI jobs m verifyDP = .ok sol) :
    List.Perm sol.sequence jobs := by
  rw [solveWSPT_MCI_ok jobs m verifyDP sol h]
  exact wsptSequence_perm jobs m

/-- Witness for C4 on a concrete four-job input. -/
theorem solveWSPT_MCI_returns_permutation_witness :
    (([Job.mk 0 4 2, Job.mk 1 2 4, Job.mk 2 2 2, Job.mk 3 2 6] ≠
        ([] : List Job)) ∧ (1 : Int) ≤ 2 ∧
      solveWSPT_MCI [Job.mk 0 4 2, Job.mk 1 2 4, Job.mk 2 2 2, Job.mk 3 2 6]
        2 false = .ok ⟨[Job.mk 3 2 6, Job.mk 1 2 4, Job.mk 2 2 2,
          Job.mk 0 4 2], 92⟩) ∧
    List.Perm (Solution.sequence ⟨[Job.mk 3 2 6, Job.mk 1 2 4, Job.mk 2 2 2,
        Job.mk 0 4 2], 92⟩)
      [Job.mk 0 4 2, Job.mk 1 2 4, Job.mk 2 2 2, Job.mk 3 2 6] :=
  ⟨⟨by decide, by decide, by decide⟩,
    solveWSPT_MCI_returns_permutation _ 2 false (by decide) (by decide) _
      (by decide)⟩

theorem wsptLt_eq_specPrecedes : wsptLt = specPrecedes := by
  funext a b
  rw [wsptLt, specPrecedes]
  by_cases h : a.w * b.p = b.w * a.p
  · simp [h]
  · simp [h]

/-- The scan over positions `0..k` yields the minimum objective over the
scanned positions, reported at the largest position attaining it. -/
theorem scanStep_char (f : Nat → Int) :
    ∀ k, ∃ v p,
      (List.range (k + 1)).foldl (scanStep f) (none, 0) = (some v, p) ∧
      p ≤ k ∧ f p = v ∧ (∀ q, q ≤ k → v ≤ f q) ∧
      (∀ q, q ≤ k → f q = v → q ≤ p) := by
  intro k
  induction k with
  | zero =>
    refine ⟨f 0, 0, ?_, le_rfl, rfl, ?_, ?_⟩
    · rw [List.range_succ, List.range_zero, List.nil_append]
      rfl
    · intro q hq
      rw [Nat.le_zero.mp hq]
    · intro q hq _
      omega
  | succ k ih =>
    obtain ⟨v, p, hfold, hp, hfp, hmin, hlast⟩ := ih
    rw [List.range_succ, List.foldl_append, hfold, List.foldl_cons,
      List.foldl_nil]
    have hplt : decide (p < k + 1) = true := by
      simp
      omega
    rcases lt_trichotomy (f (k + 1)) v with hlt | heq | hgt
    · refine ⟨f (k + 1), k + 1, ?_, le_rfl, rfl, ?_, ?_⟩
      · rw [scanStep]
        simp only
        rw [if_pos (by simp [hlt])]
      · intro q hq
        rcases Nat.lt_succ_iff_lt_or_eq.mp (Nat.lt_succ_of_le hq) with h | h
        · exact le_trans (le_of_lt hlt) (hmin q (by omega))
        · rw [h]
      · intro q hq _
        omega
    · refine ⟨v, k + 1, ?_, le_rfl, heq, ?_, ?_⟩
      · rw [scanStep]
        simp only
        rw [if_pos (by simp [heq, hplt]), heq]
      · intro q hq
        rcases Nat.lt_succ_iff_lt_or_eq.mp (Nat.lt_succ_of_le hq) with h | h
        · exact hmin q (by omega)
        · rw [h, heq]
      · intro q hq _
        omega
    · refine ⟨v, p, ?_, le_trans hp (by omega), hfp, ?_, ?_⟩
      · rw [scanStep]
        simp only
        rw [if_neg (by simp; omega)]
      · intro q hq
        rcases Nat.lt_succ_iff_lt_or_eq.mp (Nat.lt_succ_of_le hq) with h | h
        · exact hmin q (by omega)
        · rw [h]
          exact le_of_lt hgt
      · intro q hq hq2
        rcases Nat.lt_succ_iff_lt_or_eq.mp (Nat.lt_succ_of_le hq) with h | h
        · exact hlast q (by omega) hq2
        · rw [h] at hq2
          omega

theorem foldr_max_le (b : Nat) :
    ∀ l : List Nat, (∀ q ∈ l, q ≤ b) → l.foldr max 0 ≤ b := by
  intro l
  induction l with
  | nil => intro _; exact Nat.zero_le b
  | cons a l ih =>
    intro h
    rw [List.foldr_cons]
    exact max_le (h a (List.mem_cons_self a l))
      (ih fun q hq => h q (List.mem_cons_of_mem a hq))

theorem foldr_max_eq (p : Nat) :
    ∀ l : List Nat, p ∈ l → (∀ q ∈ l, q ≤ p) → l.foldr max 0 = p := by
  intro l
  induction l with
  | nil => intro h; exact absurd h (List.not_mem_nil p)
  | cons a l ih =>
    intro hmem hle
    rw [List.foldr_cons]
    rcases List.mem_cons.mp hmem with h | h
    · rw [← h]
      exact max_eq_left (foldr_max_le p l fun q hq => h ▸ hle q (List.mem_cons_of_mem a hq))
    · rw [ih h fun q hq => hle q (List.mem_cons_of_mem a hq)]
      exact max_eq_right (hle a (List.mem_cons_self a l))

theorem mciScan_snd_eq_specBestPos (m : Int) (S : List Job) (j : Job) :
    (mciScan m S j).2 = specBestPos S j m := by
  obtain ⟨v, p, hfold, hp, hfp, hmin, hlast⟩ :=
    scanStep_char (fun pos => closedForm (insertAt pos j S) m) S.length
  rw [mciScan, hfold]
  refine (foldr_max_eq p _ ?_ ?_).symm
  · rw [List.mem_filter]
    refine ⟨List.mem_range.mpr (by omega), ?_⟩
    rw [List.all_eq_true]
    intro q hq
    rw [decide_eq_true_iff, hfp]
    exact hmin q (by have := List.mem_range.mp hq; omega)
  · intro q hq
    rw [List.mem_filter] at hq
    obtain ⟨hq1, hq2⟩ := hq
    rw [List.all_eq_true] at hq2
    have hq1' : q ≤ S.length := by have := List.mem_range.mp hq1; omega
    have h1 : closedForm (insertAt q j S) m ≤ closedForm (insertAt p j S) m :=
      of_decide_eq_true (hq2 p (List.mem_range.mpr (by omega)))
    have h2 : v ≤ closedForm (insertAt q j S) m := hmin q hq1'
    rw [hfp] at h1
    exact hlast q hq1' (le_antisymm h1 h2)

/-- The oracle's construction coincides with the reference algorithm on
every input. -/
theorem wsptSequence_eq_specWSPT_MCI (jobs : List Job) (m : Int) :
    wsptSequence jobs m = specWSPT_MCI jobs m := by
  rw [wsptSequence, specWSPT_MCI, specSort]
  rw [show wsptLe = (fun a b => ! specPrecedes b a) by
    funext a b
    rw [wsptLe, wsptLt_eq_specPrecedes]]
  cases stableSort (fun a b => ! specPrecedes b a) jobs with
  | nil => rfl
  | cons j0 rest =>
    refine List.foldl_ext _ _ _ ?_
    intro S x _
    rw [mciInsert, mciScan_snd_eq_specBestPos]

/-- C3: on success (non-empty input, `m ≥ 1`), the sequence built by
`solveWSPT_MCI` equals the result of the reference algorithm of spec
§4.2: stable sort by strictly decreasing `w/p` compared by
cross-multiplication with smaller `p` first on a tie, then minimal-cost
insertion choosing the largest position index on an objective tie. -/
theorem solveWSPT_MCI_matches_reference (jobs : List Job) (m : Int)
    (verifyDP : Bool) (_hne : jobs ≠ []) (_hm : 1 ≤ m) (sol : Solution)
    (h : solveWSPT_MCI jobs m verifyDP = .ok sol) :
    sol.sequence = specWSPT_MCI jobs m := by
  rw [solveWSPT_MCI_ok jobs m verifyDP sol h]
  exact wsptSequence_eq_specWSPT_MCI jobs m

/-- Witness for C3 on a concrete four-job input. -/
theorem solveWSPT_MCI_matches_reference_witness :
    (([Job.mk 0 4 2, Job.mk 1 2 4, Job.mk 2 2 2, Job.mk 3 2 6] ≠
        ([] : List Job)) ∧ (1 : Int) ≤ 2 ∧
      solveWSPT_MCI [Job.mk 0 4 2, Job.mk 1 2 4, Job.mk 2 2 2, Job.mk 3 2 6]
        2 false = .ok ⟨[Job.mk 3 2 6, Job.mk 1 2 4, Job.mk 2 2 2,
          Job.mk 0 4 2], 92⟩) ∧
    Solution.sequence (⟨[Job.mk 3 2 6, Job.mk 1 2 4, Job.mk 2 2 2,
        Job.mk 0 4 2], 92⟩ : Solution) =
      specWSPT_MCI [Job.mk 0 4 2, Job.mk 1 2 4, Job.mk 2 2 2, Job.mk 3 2 6]
        2 :=
  ⟨⟨by decide, by decide, by decide⟩,
    solveWSPT_MCI_matches_reference _ 2 false (by decide) (by decide) _
      (by decide)⟩

theorem maskOutCost_nonneg :
    ∀ costs : List Int, (∀ c ∈ costs, 0 ≤ c) →
      ∀ mask, 0 ≤ maskOutCost costs mask := by
  intro costs
  induction costs with
  | nil =>
    intro _ mask
    simp [maskOutCost]
  | cons u C ih =>
    intro hc mask
    rw [maskOutCost]
    split
    · exact ih (fun c h => hc c (List.mem_cons_of_mem u h)) (mask / 2)
    · exact add_nonneg (hc u (List.mem_cons_self u C))
        (ih (fun c h => hc c (List.mem_cons_of_mem u h)) (mask / 2))

theorem maskInhouse_ones :
    ∀ jobs : List Job, maskInhouse jobs (2 ^ jobs.length - 1) = jobs := by
  intro jobs
  induction jobs with
  | nil => rfl
  | cons j J ih =>
    have hp : 1 ≤ 2 ^ J.length := Nat.one_le_two_pow
    have hpow : 2 ^ (J.length + 1) = 2 * 2 ^ J.length := by ring
    rw [show (j :: J).length = J.length + 1 from rfl, maskInhouse,
      if_pos (by omega),
      show (2 ^ (J.length + 1) - 1) / 2 = 2 ^ J.length - 1 by omega, ih]

theorem maskOutsourced_ones :
    ∀ jobs : List Job, maskOutsourced jobs (2 ^ jobs.length - 1) = [] := by
  intro jobs
  induction jobs with
  | nil => rfl
  | cons j J ih =>
    have hp : 1 ≤ 2 ^ J.length := Nat.one_le_two_pow
    have hpow : 2 ^ (J.length + 1) = 2 * 2 ^ J.length := by ring
    rw [show (j :: J).length = J.length + 1 from rfl, maskOutsourced,
      if_pos (by omega),
      show (2 ^ (J.length + 1) - 1) / 2 = 2 ^ J.length - 1 by omega, ih]

theorem maskOutCost_ones :
    ∀ costs : List Int, maskOutCost costs (2 ^ costs.length - 1) = 0 := by
  intro costs
  induction costs with
  | nil => rfl
  | cons u C ih =>
    have hp : 1 ≤ 2 ^ C.length := Nat.one_le_two_pow
    have hpow : 2 ^ (C.length + 1) = 2 * 2 ^ C.length := by ring
    rw [show (u :: C).length = C.length + 1 from rfl, maskOutCost,
      if_pos (by omega),
      show (2 ^ (C.length + 1) - 1) / 2 = 2 ^ C.length - 1 by omega, ih]

theorem mask_partition_perm : ∀ (jobs : List Job) (mask : Nat),
    List.Perm (maskInhouse jobs mask ++ maskOutsourced jobs mask) jobs := by
  intro jobs
  induction jobs with
  | nil => intro mask; exact List.Perm.refl _
  | cons j J ih =>
    intro mask
    rw [maskInhouse, maskOutsourced]
    by_cases h : mask % 2 = 1
    · rw [if_pos h, if_pos h, List.cons_append]
      exact (ih (mask / 2)).cons j
    · rw [if_neg h, if_neg h]
      exact List.perm_middle.trans ((ih (mask / 2)).cons j)

theorem mem_of_mem_maskInhouse {jobs : List Job} {mask : Nat} {x : Job}
    (h : x ∈ maskInhouse jobs mask) : x ∈ jobs :=
  (mask_partition_perm jobs mask).subset (List.mem_append_left _ h)

theorem mem_of_mem_maskOutsourced {jobs : List Job} {mask : Nat} {x : Job}
    (h : x ∈ maskOutsourced jobs mask) : x ∈ jobs :=
  (mask_partition_perm jobs mask).subset (List.mem_append_right _ h)

theorem maskInhouse_append_low :
    ∀ (A : List Job) (x : Job) (μ : Nat), μ < 2 ^ A.length →
      maskInhouse (A ++ [x]) μ = maskInhouse A μ := by
  intro A
  induction A with
  | nil =>
    intro x μ hμ
    have : μ = 0 := by simpa using hμ
    subst this
    rfl
  | cons a A ih =>
    intro x μ hμ
    simp only [List.length_cons] at hμ
    have hpow : 2 ^ (A.length + 1) = 2 * 2 ^ A.length := by ring
    have h2 : μ / 2 < 2 ^ A.length := by omega
    rw [List.cons_append, maskInhouse, maskInhouse, ih x (μ / 2) h2]

theorem maskInhouse_append_high :
    ∀ (A : List Job) (x : Job) (μ : Nat), μ < 2 ^ A.length →
      maskInhouse (A ++ [x]) (μ + 2 ^ A.length) = maskInhouse A μ ++ [x] := by
  intro A
  induction A with
  | nil =>
    intro x μ hμ
    have : μ = 0 := by simpa using hμ
    subst this
    rfl
  | cons a A ih =>
    intro x μ hμ
    simp only [List.length_cons] at hμ ⊢
    have hpow : 2 ^ (A.length + 1) = 2 * 2 ^ A.length := by ring
    have h2 : μ / 2 < 2 ^ A.length := by omega
    have hmod : (μ + 2 ^ (A.length + 1)) % 2 = μ % 2 := by omega
    have hdiv : (μ + 2 ^ (A.length + 1)) / 2 = μ / 2 + 2 ^ A.length := by
      omega
    rw [List.cons_append, maskInhouse, maskInhouse, hmod, hdiv,
      ih x (μ / 2) h2]
    by_cases h : μ % 2 = 1
    · rw [if_pos h, if_pos h, List.cons_append]
    · rw [if_neg h, if_neg h]

theorem maskOutCost_append_low :
    ∀ (C : List Int) (u : Int) (μ : Nat), μ < 2 ^ C.length →
      maskOutCost (C ++ [u]) μ = maskOutCost C μ + u := by
  intro C
  induction C with
  | nil =>
    intro u μ hμ
    have : μ = 0 := by simpa using hμ
    subst this
    simp [maskOutCost]
  | cons c C ih =>
    intro u μ hμ
    simp only [List.length_cons] at hμ
    have hpow : 2 ^ (C.length + 1) = 2 * 2 ^ C.length := by ring
    have h2 : μ / 2 < 2 ^ C.length := by omega
    rw [List.cons_append, maskOutCost, maskOutCost, ih u (μ / 2) h2]
    by_cases h : μ % 2 = 1
    · rw [if_pos h, if_pos h]
    · rw [if_neg h, if_neg h]
      ring

theorem maskOutCost_append_high :
    ∀ (C : List Int) (u : Int) (μ : Nat), μ < 2 ^ C.length →
      maskOutCost (C ++ [u]) (μ + 2 ^ C.length) = maskOutCost C μ := by
  intro C
  induction C with
  | nil =>
    intro u μ hμ
    have : μ = 0 := by simpa using hμ
    subst this
    rfl
  | cons c C ih =>
    intro u μ hμ
    simp only [List.length_cons] at hμ ⊢
    have hpow : 2 ^ (C.length + 1) = 2 * 2 ^ C.length := by ring
    have h2 : μ / 2 < 2 ^ C.length := by omega
    have hmod : (μ + 2 ^ (C.length + 1)) % 2 = μ % 2 := by omega
    have hdiv : (μ + 2 ^ (C.length + 1)) / 2 = μ / 2 + 2 ^ C.length := by
      omega
    rw [List.cons_append, maskOutCost, maskOutCost, hmod, hdiv,
      ih u (μ / 2) h2]

/-- Stepping on one mask keeps the running best at most any previous
best, and at most the record of the stepped mask when that mask is
within budget. -/
theorem naiveStep_le (jobs : List Job) (costs : List Int) (m U : Int)
    (acc : Option NaiveResult) (μ : Nat) :
    (∀ b₀, acc = some b₀ →
      ∃ b₁, naiveStep jobs costs m U acc μ = some b₁ ∧
        b₁.objective ≤ b₀.objective) ∧
    (maskOutCost costs μ ≤ U →
      ∃ b₁, naiveStep jobs costs m U acc μ = some b₁ ∧
        b₁.objective ≤ (maskRecord jobs costs m μ).objective) := by
  constructor
  · intro b₀ hacc
    subst hacc
    simp only [naiveStep]
    by_cases hskip : U < maskOutCost costs μ
    · rw [if_pos hskip]
      exact ⟨b₀, rfl, le_rfl⟩
    · rw [if_neg hskip]
      by_cases hlt : (maskRecord jobs costs m μ).objective < b₀.objective
      · rw [if_pos hlt]
        exact ⟨_, rfl, le_of_lt hlt⟩
      · rw [if_neg hlt]
        exact ⟨b₀, rfl, le_rfl⟩
  · intro hfeas
    cases acc with
    | none =>
      simp only [naiveStep]
      rw [if_neg (not_lt.mpr hfeas)]
      exact ⟨_, rfl, le_rfl⟩
    | some b =>
      simp only [naiveStep]
      rw [if_neg (not_lt.mpr hfeas)]
      by_cases hlt : (maskRecord jobs costs m μ).objective < b.objective
      · rw [if_pos hlt]
        exact ⟨_, rfl, le_rfl⟩
      · rw [if_neg hlt]
        exact ⟨b, rfl, not_lt.mp hlt⟩

/-- Over any mask list, the enumeration's final best is at most any
prior best and at most the record of every within-budget mask it
visits. -/
theorem naiveFold_below (jobs : List Job) (costs : List Int) (m U : Int) :
    ∀ (masks : List Nat) (acc : Option NaiveResult),
      (∀ b₀, acc = some b₀ →
        ∃ b, masks.foldl (naiveStep jobs costs m U) acc = some b ∧
          b.objective ≤ b₀.objective) ∧
      (∀ μ ∈ masks, maskOutCost costs μ ≤ U →
        ∃ b, masks.foldl (naiveStep jobs costs m U) acc = some b ∧
          b.objective ≤ (maskRecord jobs costs m μ).objective) := by
  intro masks
  induction masks with
  | nil =>
    intro acc
    refine ⟨fun b₀ h => ⟨b₀, h, le_rfl⟩, fun μ h => absurd h (List.not_mem_nil μ)⟩
  | cons μ₀ rest ih =>
    intro acc
    constructor
    · intro b₀ hacc
      obtain ⟨b₁, hb₁, hle₁⟩ :=
        (naiveStep_le jobs costs m U acc μ₀).1 b₀ hacc
      obtain ⟨b, hb, hle⟩ :=
        (ih (naiveStep jobs costs m U acc μ₀)).1 b₁ hb₁
      exact ⟨b, by rw [List.foldl_cons]; exact hb, le_trans hle hle₁⟩
    · intro μ hμ hfeas
      rcases List.mem_cons.mp hμ with h | h
      · subst h
        obtain ⟨b₁, hb₁, hle₁⟩ := (naiveStep_le jobs costs m U acc μ).2 hfeas
        obtain ⟨b, hb, hle⟩ :=
          (ih (naiveStep jobs costs m U acc μ)).1 b₁ hb₁
        exact ⟨b, by rw [List.foldl_cons]; exact hb, le_trans hle hle₁⟩
      · obtain ⟨b, hb, hle⟩ :=
          (ih (naiveStep jobs costs m U acc μ₀)).2 μ h hfeas
        exact ⟨b, by rw [List.foldl_cons]; exact hb, hle⟩

/-- The enumeration's final best is either the untouched accumulator or
the record of some within-budget visited mask. -/
theorem naiveFold_attained (jobs : List Job) (costs : List Int) (m U : Int) :
    ∀ (masks : List Nat) (acc : Option NaiveResult),
      masks.foldl (naiveStep jobs costs m U) acc = acc ∨
      ∃ μ ∈ masks, maskOutCost costs μ ≤ U ∧
        masks.foldl (naiveStep jobs costs m U) acc =
          some (maskRecord jobs costs m μ) := by
  intro masks
  induction masks with
  | nil => intro acc; exact Or.inl rfl
  | cons μ₀ rest ih =>
    intro acc
    rw [List.foldl_cons]
    have hstep : naiveStep jobs costs m U acc μ₀ = acc ∨
        (maskOutCost costs μ₀ ≤ U ∧
          naiveStep jobs costs m U acc μ₀ =
            some (maskRecord jobs costs m μ₀)) := by
      cases acc with
      | none =>
        simp only [naiveStep]
        by_cases hskip : U < maskOutCost costs μ₀
        · rw [if_pos hskip]
          exact Or.inl rfl
        · rw [if_neg hskip]
          exact Or.inr ⟨not_lt.mp hskip, rfl⟩
      | some b =>
        simp only [naiveStep]
        by_cases hskip : U < maskOutCost costs μ₀
        · rw [if_pos hskip]
          exact Or.inl rfl
        · rw [if_neg hskip]
          by_cases hlt : (maskRecord jobs costs m μ₀).objective < b.objective
          · rw [if_pos hlt]
            exact Or.inr ⟨not_lt.mp hskip, rfl⟩
          · rw [if_neg hlt]
            exact Or.inl rfl
    rcases hstep with h | ⟨hfeas, h⟩
    · rw [h]
      rcases ih acc with h2 | ⟨μ, hμ, hf, h2⟩
      · exact Or.inl h2
      · exact Or.inr ⟨μ, List.mem_cons_of_mem μ₀ hμ, hf, h2⟩
    · rw [h]
      rcases ih (some (maskRecord jobs costs m μ₀)) with h2 | ⟨μ, hμ, hf, h2⟩
      · exact Or.inr ⟨μ₀, List.mem_cons_self μ₀ rest, hfeas, by rw [h2]⟩
      · exact Or.inr ⟨μ, List.mem_cons_of_mem μ₀ hμ, hf, h2⟩

/-- With matching lengths, fewer than 63 jobs and `m ≥ 1`,
`solveNaiveDetailed` passes validation and returns the fold's best (or
the all-outsourced fallback). -/
theorem solveNaiveDetailed_ok (jobs : List Job) (costs : List Int)
    (m U : Int) (hlen : jobs.length = costs.length)
    (hn : jobs.length < 63) (hm : 1 ≤ m) :
    solveNaiveDetailed jobs costs m U =
      .ok (match naiveFold jobs costs m U with
        | some best => best
        | none => ⟨0, [], jobs, costs.sum⟩) := by
  rw [solveNaiveDetailed, if_neg (by omega), if_neg (by omega),
    if_neg (fun h => absurd h.1 (by omega))]

/-- When at least one mask is within budget, `solveNaiveDetailed`
returns the record of a within-budget mask whose objective is minimal
among all `2^n` within-budget masks. -/
theorem solveNaiveDetailed_min (jobs : List Job) (costs : List Int)
    (m U : Int) (hlen : jobs.length = costs.length)
    (hn : jobs.length < 63) (hm : 1 ≤ m)
    (hfeas : ∃ μ₀ ∈ List.range (2 ^ jobs.length),
      maskOutCost costs μ₀ ≤ U) :
    ∃ μ ∈ List.range (2 ^ jobs.length), maskOutCost costs μ ≤ U ∧
      solveNaiveDetailed jobs costs m U = .ok (maskRecord jobs costs m μ) ∧
      ∀ μ' ∈ List.range (2 ^ jobs.length), maskOutCost costs μ' ≤ U →
        (maskRecord jobs costs m μ).objective ≤
          (maskRecord jobs costs m μ').objective := by
  obtain ⟨μ₀, hμ₀r, hμ₀f⟩ := hfeas
  obtain ⟨b, hb, _⟩ :=
    (naiveFold_below jobs costs m U (List.range (2 ^ jobs.length)) none).2
      μ₀ hμ₀r hμ₀f
  rcases naiveFold_attained jobs costs m U (List.range (2 ^ jobs.length))
      none with h | ⟨μ, hμr, hμf, h⟩
  · rw [h] at hb
    exact absurd hb (by simp)
  · refine ⟨μ, hμr, hμf, ?_, ?_⟩
    · rw [solveNaiveDetailed_ok jobs costs m U hlen hn hm, naiveFold, h]
    · intro μ' hr' hf'
      obtain ⟨b', hb', hle'⟩ :=
        (naiveFold_below jobs costs m U (List.range (2 ^ jobs.length))
          none).2 μ' hr' hf'
      rw [h] at hb'
      have : maskRecord jobs costs m μ = b' := Option.some.inj hb'
      rw [this]
      exact hle'

theorem take_succ_getD {α : Type} (d : α) :
    ∀ (l : List α) (i : Nat), i < l.length →
      l.take (i + 1) = l.take i ++ [l.getD i d] := by
  intro l
  induction l with
  | nil =>
    intro i hi
    simp at hi
  | cons a l ih =>
    intro i hi
    cases i with
    | zero => simp [List.getD]
    | succ i =>
      rw [List.take_succ_cons, List.take_succ_cons,
        show (a :: l).getD (i + 1) d = l.getD i d from rfl,
        ih i (by simpa using hi), List.cons_append]

theorem oracleObjective_nil (m : Int) : oracleObjective [] m = 0 := rfl

theorem wsptSequence_nil (m : Int) : wsptSequence [] m = [] := rfl

/-- Every DP cell is reachable, and holds the in-house subset of some
bitmask over the processed prefix whose outsourcing cost fits the
cell's cap; its objective is the oracle objective of that subset. -/
theorem dpCell_spec (jobs : List Job) (costs : List Int) (m : Int)
    (hlen : jobs.length = costs.length) :
    ∀ i, i ≤ jobs.length → ∀ c : Nat,
      ∃ μ < 2 ^ i,
        (dpCell jobs costs m i c).inhouseJobs =
          maskInhouse (jobs.take i) μ ∧
        maskOutCost (costs.take i) μ ≤ (c : Int) ∧
        (dpCell jobs costs m i c).objective =
          some (oracleObjective (dpCell jobs costs m i c).inhouseJobs m) := by
  intro i
  induction i with
  | zero =>
    intro _ c
    exact ⟨0, by norm_num, rfl, by simp [maskOutCost], rfl⟩
  | succ i ih =>
    intro hi c
    have hjlen : (jobs.take i).length = i :=
      List.length_take_of_le (by omega)
    have hclen : (costs.take i).length = i :=
      List.length_take_of_le (by omega)
    have hjtake : jobs.take (i + 1) = jobs.take i ++ [jobs.getD i ⟨0, 0, 0⟩] :=
      take_succ_getD _ jobs i (by omega)
    have hctake : costs.take (i + 1) = costs.take i ++ [costs.getD i 0] :=
      take_succ_getD _ costs i (by omega)
    -- the keep state at cap c
    obtain ⟨μk, hμk, hkinh, hkcost, hkobj⟩ := ih (by omega) c
    have happK := maskInhouse_append_high (jobs.take i)
      (jobs.getD i ⟨0, 0, 0⟩) μk (by rw [hjlen]; exact hμk)
    rw [hjlen] at happK
    have happKC := maskOutCost_append_high (costs.take i)
      (costs.getD i 0) μk (by rw [hclen]; exact hμk)
    rw [hclen] at happKC
    have hkeep : dpKeep jobs m i (dpCell jobs costs m i c) =
        ⟨some (oracleObjective (maskInhouse (jobs.take (i + 1))
            (μk + 2 ^ i)) m),
          maskInhouse (jobs.take (i + 1)) (μk + 2 ^ i)⟩ := by
      simp only [dpKeep, hkobj, hkinh]
      rw [hjtake, happK]
    have hkeepCost : maskOutCost (costs.take (i + 1)) (μk + 2 ^ i) ≤
        (c : Int) := by
      rw [hctake, happKC]
      exact hkcost
    have hμk1 : μk + 2 ^ i < 2 ^ (i + 1) := by
      have : 2 ^ (i + 1) = 2 * 2 ^ i := by ring
      omega
    rw [dpCell]
    by_cases hguard : costs.getD i 0 ≤ (c : Int)
    · rw [if_pos hguard, hkeep]
      -- the outsource state at cap c - u
      obtain ⟨μo, hμo, hoinh, hocost, hoobj⟩ :=
        ih (by omega) ((c : Int) - costs.getD i 0).toNat
      have hμo1 : μo < 2 ^ (i + 1) := by
        have : 2 ^ (i + 1) = 2 * 2 ^ i := by ring
        omega
      have hoinh1 : maskInhouse (jobs.take (i + 1)) μo =
          maskInhouse (jobs.take i) μo := by
        rw [hjtake]
        exact maskInhouse_append_low (jobs.take i) _ μo
          (by rw [hjlen]; exact hμo)
      have hocost1 : maskOutCost (costs.take (i + 1)) μo ≤ (c : Int) := by
        rw [hctake, maskOutCost_append_low (costs.take i) _ μo
          (by rw [hclen]; exact hμo)]
        have htn : (((c : Int) - costs.getD i 0).toNat : Int) =
            (c : Int) - costs.getD i 0 :=
          Int.toNat_of_nonneg (by omega)
        rw [htn] at hocost
        omega
      simp only [dpCombine, hoobj]
      by_cases hlt :
          oracleObjective
            ((dpCell jobs costs m i
              ((c : Int) - costs.getD i 0).toNat).inhouseJobs) m <
          oracleObjective
            (maskInhouse (jobs.take (i + 1)) (μk + 2 ^ i)) m
      · rw [if_pos hlt]
        refine ⟨μo, hμo1, ?_, hocost1, ?_⟩ <;> simp only [hoinh, hoinh1]
      · rw [if_neg hlt]
        exact ⟨μk + 2 ^ i, hμk1, rfl, hkeepCost, rfl⟩
    · rw [if_neg hguard, hkeep]
      exact ⟨μk + 2 ^ i, hμk1, rfl, hkeepCost, rfl⟩

/-- When every cost strictly exceeds the budget, no DP transition can
ever outsource: every cell keeps the full processed prefix in-house. -/
theorem dpCell_allKept (jobs : List Job) (costs : List Int) (m U : Int)
    (hlen : jobs.length = costs.length)
    (hexp : ∀ c ∈ costs, U < c) :
    ∀ i, i ≤ jobs.length → ∀ c : Nat, (c : Int) ≤ U →
      dpCell jobs costs m i c =
        ⟨some (oracleObjective (jobs.take i) m), jobs.take i⟩ := by
  intro i
  induction i with
  | zero =>
    intro _ c _
    rfl
  | succ i ih =>
    intro hi c hc
    have hmem : costs.getD i 0 ∈ costs := by
      rw [List.getD_eq_getElem _ _ (by omega)]
      exact costs.getElem_mem (by omega)
    have hu : U < costs.getD i 0 := hexp _ hmem
    rw [dpCell, if_neg (by omega), ih (by omega) c hc]
    simp only [dpKeep]
    rw [← take_succ_getD ⟨0, 0, 0⟩ jobs i (by omega)]

/-- Evaluation of `solveDP` past validation, given the final DP cell. -/
theorem solveDP_eval (jobs : List Job) (costs : List Int) (m U : Int)
    (hlen : jobs.length = costs.length) (hU : 0 ≤ U)
    (hc : ∀ c ∈ costs, 0 ≤ c) (hm : 1 ≤ m)
    (o : Int) (inh : List Job)
    (hcell : dpCell jobs costs m jobs.length U.toNat = ⟨some o, inh⟩) :
    solveDP jobs costs m U = .ok
      ⟨if inh.isEmpty then o else oracleObjective inh m,
        if inh.isEmpty then [] else wsptSequence inh m,
        jobs.filter fun j => decide (j.id ∉ inh.map Job.id),
        ((jobs.zip costs).filter fun jc =>
          decide (jc.1.id ∉ inh.map Job.id)).foldl
          (fun s jc => s + jc.2) 0⟩ := by
  have hneg3 : ¬∃ c ∈ costs, c < 0 := by
    push_neg
    intro c hcc
    exact hc c hcc
  rw [solveDP, if_neg (by omega), if_neg (by omega), if_neg hneg3,
    if_neg (fun h => absurd h.1 (by omega))]
  simp only [hcell]

/-- When the budget is non-negative but every cost strictly exceeds it,
every mask other than the all-in-house mask costs more than the
budget. -/
theorem maskOutCost_gt_of_ne_ones :
    ∀ (costs : List Int) (U : Int), 0 ≤ U → (∀ c ∈ costs, U < c) →
      ∀ μ, μ < 2 ^ costs.length → μ ≠ 2 ^ costs.length - 1 →
        U < maskOutCost costs μ := by
  intro costs
  induction costs with
  | nil =>
    intro U _ _ μ hμ hne
    rw [List.length_nil, pow_zero] at hμ hne
    omega
  | cons u C ih =>
    intro U hU hexp μ hμ hne
    simp only [List.length_cons] at hμ hne
    have hpow : 2 ^ (C.length + 1) = 2 * 2 ^ C.length := by ring
    have h1 : 1 ≤ 2 ^ C.length := Nat.one_le_two_pow
    rw [maskOutCost]
    by_cases hbit : μ % 2 = 1
    · rw [if_pos hbit]
      exact ih U hU (fun c h => hexp c (List.mem_cons_of_mem u h)) (μ / 2)
        (by omega) (by omega)
    · rw [if_neg hbit]
      have hrest : 0 ≤ maskOutCost C (μ / 2) :=
        maskOutCost_nonneg C
          (fun c h => le_trans hU (le_of_lt (hexp c (List.mem_cons_of_mem u h))))
          (μ / 2)
      have := hexp u (List.mem_cons_self u C)
      omega

theorem foldl_add_snd (l : List (Job × Int)) :
    ∀ s : Int, l.foldl (fun s jc => s + jc.2) s = s + (l.map Prod.snd).sum := by
  induction l with
  | nil => intro s; simp
  | cons x l ih =>
    intro s
    rw [List.foldl_cons, ih (s + x.2), List.map_cons, List.sum_cons]
    ring

/-- With pairwise distinct ids, reconstructing the outsourced list by
id-absence from the winning in-house subset recovers exactly the mask's
outsourced jobs. -/
theorem dp_outsourced_filter :
    ∀ (jobs : List Job) (μ : Nat), (jobs.map Job.id).Nodup →
      (jobs.filter fun j =>
        decide (j.id ∉ (maskInhouse jobs μ).map Job.id)) =
        maskOutsourced jobs μ := by
  intro jobs
  induction jobs with
  | nil => intro μ _; rfl
  | cons j J ih =>
    intro μ hnd
    rw [List.map_cons, List.nodup_cons] at hnd
    obtain ⟨hid, hnd'⟩ := hnd
    rw [maskInhouse, maskOutsourced]
    by_cases hbit : μ % 2 = 1
    · rw [if_pos hbit, if_pos hbit]
      rw [List.filter_cons]
      have hhead : (decide (j.id ∉ (j :: maskInhouse J (μ / 2)).map Job.id))
          = false := by
        simp [List.map_cons]
      rw [hhead]
      simp only [Bool.false_eq_true, if_false]
      rw [List.filter_congr (fun x hx => ?_), ih (μ / 2) hnd']
      have hxid : x.id ∈ J.map Job.id := List.mem_map_of_mem Job.id hx
      have hne : x.id ≠ j.id := fun h => hid (h ▸ hxid)
      simp [List.map_cons, hne]
    · rw [if_neg hbit, if_neg hbit]
      rw [List.filter_cons]
      have hhead : (decide (j.id ∉ (maskInhouse J (μ / 2)).map Job.id))
          = true := by
        rw [decide_eq_true_iff]
        intro hmem
        obtain ⟨x, hx, hxid⟩ := List.mem_map.mp hmem
        exact hid (hxid ▸ List.mem_map_of_mem Job.id
          (mem_of_mem_maskInhouse hx))
      rw [hhead]
      simp only [if_true]
      rw [ih (μ / 2) hnd']

/-- With pairwise distinct ids and matching lengths, the id-based cost
reconstruction spends exactly the mask's outsourcing cost. -/
theorem dp_outcost_foldl :
    ∀ (jobs : List Job) (costs : List Int) (μ : Nat),
      jobs.length = costs.length → (jobs.map Job.id).Nodup →
      ((jobs.zip costs).filter fun jc =>
        decide (jc.1.id ∉ (maskInhouse jobs μ).map Job.id)).foldl
        (fun s jc => s + jc.2) 0 = maskOutCost costs μ := by
  intro jobs
  induction jobs with
  | nil =>
    intro costs μ hlen _
    have : costs = [] :=
      List.eq_nil_of_length_eq_zero (by simpa using hlen.symm)
    subst this
    rfl
  | cons j J ih =>
    intro costs μ hlen hnd
    cases costs with
    | nil => simp at hlen
    | cons u C =>
      rw [List.map_cons, List.nodup_cons] at hnd
      obtain ⟨hid, hnd'⟩ := hnd
      have hlen' : J.length = C.length := by simpa using hlen
      rw [List.zip_cons_cons, maskInhouse, maskOutCost]
      by_cases hbit : μ % 2 = 1
      · rw [if_pos hbit, if_pos hbit]
        rw [List.filter_cons]
        have hhead : (decide ((j, u).1.id ∉
            (j :: maskInhouse J (μ / 2)).map Job.id)) = false := by
          simp [List.map_cons]
        rw [hhead]
        simp only [Bool.false_eq_true, if_false]
        rw [List.filter_congr (fun xc hxc => ?_), ih C (μ / 2) hlen' hnd']
        have hx : xc.1 ∈ J := (List.of_mem_zip hxc).1
        have hxid : xc.1.id ∈ J.map Job.id := List.mem_map_of_mem Job.id hx
        have hne : xc.1.id ≠ j.id := fun h => hid (h ▸ hxid)
        simp [List.map_cons, hne]
      · rw [if_neg hbit, if_neg hbit]
        rw [List.filter_cons]
        have hhead : (decide ((j, u).1.id ∉
            (maskInhouse J (μ / 2)).map Job.id)) = true := by
          rw [decide_eq_true_iff]
          intro hmem
          obtain ⟨x, hx, hxid⟩ := List.mem_map.mp hmem
          exact hid (hxid ▸ List.mem_map_of_mem Job.id
            (mem_of_mem_maskInhouse hx))
        rw [hhead]
        simp only [if_true]
        rw [List.foldl_cons, foldl_add_snd]
        have hIH := ih C (μ / 2) hlen' hnd'
        rw [foldl_add_snd, zero_add] at hIH
        rw [hIH]
        ring

/-- With pairwise distinct ids and matching lengths, summing the costs
of the mask's outsourced jobs by id recovers the mask's outsourcing
cost. -/
theorem sumCostsOf_maskOutsourced :
    ∀ (jobs : List Job) (costs : List Int) (μ : Nat),
      jobs.length = costs.length → (jobs.map Job.id).Nodup →
      sumCostsOf jobs costs ((maskOutsourced jobs μ).map Job.id) =
        maskOutCost costs μ := by
  intro jobs
  induction jobs with
  | nil =>
    intro costs μ hlen _
    have : costs = [] :=
      List.eq_nil_of_length_eq_zero (by simpa using hlen.symm)
    subst this
    rfl
  | cons j J ih =>
    intro costs μ hlen hnd
    cases costs with
    | nil => simp at hlen
    | cons u C =>
      rw [List.map_cons, List.nodup_cons] at hnd
      obtain ⟨hid, hnd'⟩ := hnd
      have hlen' : J.length = C.length := by simpa using hlen
      rw [sumCostsOf, List.zip_cons_cons, maskOutsourced, maskOutCost]
      by_cases hbit : μ % 2 = 1
      · rw [if_pos hbit, if_pos hbit]
        rw [List.filter_cons]
        have hhead : (decide ((j, u).1.id ∈
            (maskOutsourced J (μ / 2)).map Job.id)) = false := by
          rw [decide_eq_false_iff_not]
          intro hmem
          obtain ⟨x, hx, hxid⟩ := List.mem_map.mp hmem
          exact hid (hxid ▸ List.mem_map_of_mem Job.id
            (mem_of_mem_maskOutsourced hx))
        rw [hhead]
        simp only [Bool.false_eq_true, if_false]
        have hIH := ih C (μ / 2) hlen' hnd'
        rw [sumCostsOf] at hIH
        exact hIH
      · rw [if_neg hbit, if_neg hbit]
        rw [List.filter_cons]
        have hhead : (decide ((j, u).1.id ∈
            (j :: maskOutsourced J (μ / 2)).map Job.id)) = true := by
          simp [List.map_cons]
        rw [hhead]
        simp only [if_true]
        rw [List.map_cons, List.sum_cons]
        have hcongr : List.filter (fun xc => decide ((xc : Job × Int).1.id ∈
            (j :: maskOutsourced J (μ / 2)).map Job.id)) (J.zip C) =
            List.filter (fun xc => decide (xc.1.id ∈
              (maskOutsourced J (μ / 2)).map Job.id)) (J.zip C) := by
          apply List.filter_congr
          intro xc hxc
          have hx : xc.1 ∈ J := (List.of_mem_zip hxc).1
          have hxid : xc.1.id ∈ J.map Job.id := List.mem_map_of_mem Job.id hx
          have hne : xc.1.id ≠ j.id := fun h => hid (h ▸ hxid)
          simp [List.map_cons, hne]
        rw [hcongr]
        have hIH := ih C (μ / 2) hlen' hnd'
        rw [sumCostsOf] at hIH
        rw [hIH]

theorem filter_not_in_ids_nil (jobs : List Job) (ids : List Int)
    (h : ∀ j ∈ jobs, j.id ∈ ids) :
    (jobs.filter fun j => decide (j.id ∉ ids)) = [] :=
  List.filter_eq_nil_iff.mpr fun j hj => by simp [h j hj]

theorem zip_filter_not_in_ids_nil (jobs : List Job) (costs : List Int)
    (ids : List Int) (h : ∀ j ∈ jobs, j.id ∈ ids) :
    ((jobs.zip costs).filter fun jc => decide (jc.1.id ∉ ids)) = [] :=
  List.filter_eq_nil_iff.mpr fun jc hjc => by
    simp [h jc.1 (List.of_mem_zip hjc).1]

/-- C5 (amended): when every individual outsourcing cost strictly
exceeds the (non-negative) budget, neither selector can outsource
anything: both return all jobs in-house in the oracle's order, the
oracle's objective on the full job set, an empty outsourced list, and
outsourcing cost 0. -/
theorem allCostsExceedBudget_allInhouse (jobs : List Job)
    (costs : List Int) (m U : Int) (hn : jobs.length < 63)
    (hlen : jobs.length = costs.length) (hm : 1 ≤ m) (hU : 0 ≤ U)
    (hexp : ∀ c ∈ costs, U < c) :
    solveNaiveDetailed jobs costs m U =
      .ok ⟨oracleObjective jobs m, wsptSequence jobs m, [], 0⟩ ∧
    solveDP jobs costs m U =
      .ok ⟨oracleObjective jobs m, wsptSequence jobs m, [], 0⟩ := by
  have hc : ∀ c ∈ costs, 0 ≤ c :=
    fun c h => le_trans hU (le_of_lt (hexp c h))
  have h1 : 1 ≤ 2 ^ jobs.length := Nat.one_le_two_pow
  have hones : 2 ^ jobs.length - 1 ∈ List.range (2 ^ jobs.length) :=
    List.mem_range.mpr (by omega)
  have honesf : maskOutCost costs (2 ^ jobs.length - 1) ≤ U := by
    rw [hlen, maskOutCost_ones]
    exact hU
  constructor
  · obtain ⟨μ, hμr, hμf, hres, _⟩ :=
      solveNaiveDetailed_min jobs costs m U hlen hn hm
        ⟨2 ^ jobs.length - 1, hones, honesf⟩
    have hμones : μ = 2 ^ jobs.length - 1 := by
      by_contra hne
      have hgt := maskOutCost_gt_of_ne_ones costs U hU hexp μ
        (by rw [← hlen]; exact List.mem_range.mp hμr)
        (by rw [← hlen]; exact hne)
      omega
    subst hμones
    rw [hres, maskRecord, maskInhouse_ones, maskOutsourced_ones,
      show (2 : Nat) ^ jobs.length = 2 ^ costs.length by rw [hlen],
      maskOutCost_ones]
  · have hcell := dpCell_allKept jobs costs m U hlen hexp jobs.length
      le_rfl U.toNat (by rw [Int.toNat_of_nonneg hU])
    rw [List.take_length] at hcell
    rw [solveDP_eval jobs costs m U hlen hU hc hm
      (oracleObjective jobs m) jobs hcell]
    have hfilter : (jobs.filter fun j =>
        decide (j.id ∉ jobs.map Job.id)) = [] :=
      filter_not_in_ids_nil jobs _ fun j hj => List.mem_map_of_mem Job.id hj
    have hzip : ((jobs.zip costs).filter fun jc =>
        decide (jc.1.id ∉ jobs.map Job.id)) = [] :=
      zip_filter_not_in_ids_nil jobs costs _
        fun j hj => List.mem_map_of_mem Job.id hj
    rw [hfilter, hzip]
    by_cases hemp : jobs.isEmpty
    · have : jobs = [] := List.isEmpty_iff.mp hemp
      subst this
      rfl
    · rw [if_neg (by simpa using hemp), if_neg (by simpa using hemp)]
      rfl

/-- C10 (amended): with non-negative costs and a strictly negative
budget, the exhaustive selector does not fail: every subset is skipped
and the all-outsourced fallback is returned — objective 0, empty
in-house order, all jobs outsourced, cost equal to the total of all
costs, which exceeds `U`. -/
theorem negative_budget_fallback (jobs : List Job) (costs : List Int)
    (m U : Int) (hn : jobs.length < 63)
    (hlen : jobs.length = costs.length) (hc : ∀ c ∈ costs, 0 ≤ c)
    (hm : 1 ≤ m) (hU : U < 0) :
    solveNaiveDetailed jobs costs m U = .ok ⟨0, [], jobs, costs.sum⟩ ∧
    U < costs.sum := by
  have hsum : 0 ≤ costs.sum := List.sum_nonneg hc
  constructor
  · rw [solveNaiveDetailed_ok jobs costs m U hlen hn hm]
    have hnone : naiveFold jobs costs m U = none := by
      rcases naiveFold_attained jobs costs m U
          (List.range (2 ^ jobs.length)) none with h | ⟨μ, _, hf, _⟩
      · exact h
      · exfalso
        have := maskOutCost_nonneg costs hc μ
        omega
    rw [naiveFold] at hnone
    rw [naiveFold, hnone]
  · omega

/-- C7 (amended): with `m ≥ 1`, the exhaustive selector fails with an
invalid-argument error iff the cost-list length differs from the job
count or the job count is 63 or more; the DP selector fails with an
invalid-argument error iff the length differs, the budget is negative,
or some individual cost is negative — the DP selector does not enforce
the 63-job limit, and additionally rejects negative budgets. -/
theorem selectors_invalidArg_characterization (jobs : List Job)
    (costs : List Int) (m U : Int) (hm : 1 ≤ m) :
    (failsInvalidArg (solveNaiveDetailed jobs costs m U) = true ↔
      (jobs.length ≠ costs.length ∨ 63 ≤ jobs.length)) ∧
    (failsInvalidArg (solveDP jobs costs m U) = true ↔
      (jobs.length ≠ costs.length ∨ U < 0 ∨ ∃ c ∈ costs, c < 0)) := by
  constructor
  · rw [solveNaiveDetailed]
    by_cases h1 : jobs.length ≠ costs.length
    · simp [h1, failsInvalidArg, Err.isInvalidArg]
    · rw [if_neg h1]
      by_cases h2 : 63 ≤ jobs.length
      · simp [h1, h2, failsInvalidArg, Err.isInvalidArg]
      · rw [if_neg h2, if_neg (fun h => absurd h.1 (by omega))]
        simp [h1, h2, failsInvalidArg]
  · rw [solveDP]
    by_cases h1 : jobs.length ≠ costs.length
    · simp [h1, failsInvalidArg, Err.isInvalidArg]
    · rw [if_neg h1]
      by_cases h2 : U < 0
      · simp [h1, h2, failsInvalidArg, Err.isInvalidArg]
      · rw [if_neg h2]
        by_cases h3 : ∃ c ∈ costs, c < 0
        · simp [h1, h2, h3, failsInvalidArg, Err.isInvalidArg]
        · rw [if_neg h3, if_neg (fun h => absurd h.1 (by omega))]
          simp [h1, h2, h3, failsInvalidArg]

/-- The half of C6 that does hold: the exhaustive selector is monotone
in the budget for non-negative budgets — raising the budget never
raises the reported objective.  (The DP selector is not monotone; see
the C6 counterexample.) -/
theorem naive_objective_monotone (jobs : List Job) (costs : List Int)
    (m U₁ U₂ : Int) (hn : jobs.length < 63)
    (hlen : jobs.length = costs.length) (hm : 1 ≤ m)
    (hU₁ : 0 ≤ U₁) (hle : U₁ ≤ U₂) :
    ∃ r₁ r₂, solveNaiveDetailed jobs costs m U₁ = .ok r₁ ∧
      solveNaiveDetailed jobs costs m U₂ = .ok r₂ ∧
      r₂.objective ≤ r₁.objective := by
  have h1 : 1 ≤ 2 ^ jobs.length := Nat.one_le_two_pow
  have hones : 2 ^ jobs.length - 1 ∈ List.range (2 ^ jobs.length) :=
    List.mem_range.mpr (by omega)
  have honesf : maskOutCost costs (2 ^ jobs.length - 1) ≤ U₁ := by
    rw [hlen, maskOutCost_ones]
    exact hU₁
  obtain ⟨μ₁, hμ₁r, hμ₁f, hres₁, _⟩ :=
    solveNaiveDetailed_min jobs costs m U₁ hlen hn hm
      ⟨2 ^ jobs.length - 1, hones, honesf⟩
  obtain ⟨μ₂, hμ₂r, hμ₂f, hres₂, hmin₂⟩ :=
    solveNaiveDetailed_min jobs costs m U₂ hlen hn hm
      ⟨μ₁, hμ₁r, le_trans hμ₁f hle⟩
  exact ⟨maskRecord jobs costs m μ₁, maskRecord jobs costs m μ₂,
    hres₁, hres₂, hmin₂ μ₁ hμ₁r (le_trans hμ₁f hle)⟩

/-- The final DP cell as a structured value: the in-house set of some
within-budget mask, whose objective is the oracle objective of that
set. -/
theorem dpCell_final (jobs : List Job) (costs : List Int) (m U : Int)
    (hlen : jobs.length = costs.length) (hU : 0 ≤ U) :
    ∃ μ < 2 ^ jobs.length, maskOutCost costs μ ≤ U ∧
      dpCell jobs costs m jobs.length U.toNat =
        ⟨some (oracleObjective (maskInhouse jobs μ) m),
          maskInhouse jobs μ⟩ := by
  obtain ⟨μ, hμ, hinh, hcost, hobj⟩ :=
    dpCell_spec jobs costs m hlen jobs.length le_rfl U.toNat
  rw [List.take_length] at hinh
  have hcost' : maskOutCost costs μ ≤ U := by
    rw [hlen, List.take_length, Int.toNat_of_nonneg hU] at hcost
    exact hcost
  refine ⟨μ, hμ, hcost', ?_⟩
  rcases hdp : dpCell jobs costs m jobs.length U.toNat with ⟨o, inh⟩
  rw [hdp] at hinh hobj
  rw [show (⟨o, inh⟩ : DPState).inhouseJobs = inh from rfl] at hinh hobj
  rw [show (⟨o, inh⟩ : DPState).objective = o from rfl] at hobj
  rw [hinh] at hobj
  rw [hobj, hinh]

/-- The one-sided bound that does hold behind C1: for every in-scope
instance both selectors succeed, and the exhaustive selector's
objective is at most the DP selector's — the DP answer is the objective
of some within-budget partition, but (see the C1 counterexample) not
always the minimum its own comment promises. -/
theorem naive_le_dp_objective (jobs : List Job) (costs : List Int)
    (m U : Int) (hn : jobs.length < 63)
    (hlen : jobs.length = costs.length) (hc : ∀ c ∈ costs, 0 ≤ c)
    (hm : 1 ≤ m) (hU : 0 ≤ U) :
    ∃ rN rD, solveNaiveDetailed jobs costs m U = .ok rN ∧
      solveDP jobs costs m U = .ok rD ∧ rN.objective ≤ rD.objective := by
  obtain ⟨μ, hμ, hcost', hcell⟩ := dpCell_final jobs costs m U hlen hU
  have hDP := solveDP_eval jobs costs m U hlen hU hc hm _ _ hcell
  have h1 : 1 ≤ 2 ^ jobs.length := Nat.one_le_two_pow
  have hones : 2 ^ jobs.length - 1 ∈ List.range (2 ^ jobs.length) :=
    List.mem_range.mpr (by omega)
  have honesf : maskOutCost costs (2 ^ jobs.length - 1) ≤ U := by
    rw [hlen, maskOutCost_ones]
    exact hU
  obtain ⟨μN, hμNr, hμNf, hresN, hminN⟩ :=
    solveNaiveDetailed_min jobs costs m U hlen hn hm
      ⟨2 ^ jobs.length - 1, hones, honesf⟩
  refine ⟨maskRecord jobs costs m μN, _, hresN, hDP, ?_⟩
  have hmin := hminN μ (List.mem_range.mpr hμ) hcost'
  simpa [maskRecord, ite_self] using hmin

/-- C9: for valid inputs with pairwise distinct job ids, each
selector's result partitions the input exactly — the in-house and
outsourced ids together are a permutation of the input ids (no
duplicate, no omission) — the reported outsourcing cost is the sum of
the costs of the outsourced jobs, and that cost is within budget. -/
theorem selectors_partition_exact (jobs : List Job) (costs : List Int)
    (m U : Int) (hnd : (jobs.map Job.id).Nodup) (hn : jobs.length < 63)
    (hlen : jobs.length = costs.length) (hc : ∀ c ∈ costs, 0 ≤ c)
    (hm : 1 ≤ m) (hU : 0 ≤ U) :
    ∃ rN rD, solveNaiveDetailed jobs costs m U = .ok rN ∧
      solveDP jobs costs m U = .ok rD ∧
      ∀ r ∈ [rN, rD],
        List.Perm (r.inhouseOrder.map Job.id ++ r.outsourced.map Job.id)
          (jobs.map Job.id) ∧
        r.outsourcingCost =
          sumCostsOf jobs costs (r.outsourced.map Job.id) ∧
        r.outsourcingCost ≤ U := by
  obtain ⟨μ, hμ, hcost', hcell⟩ := dpCell_final jobs costs m U hlen hU
  have hDP := solveDP_eval jobs costs m U hlen hU hc hm _ _ hcell
  have h1 : 1 ≤ 2 ^ jobs.length := Nat.one_le_two_pow
  have hones : 2 ^ jobs.length - 1 ∈ List.range (2 ^ jobs.length) :=
    List.mem_range.mpr (by omega)
  have honesf : maskOutCost costs (2 ^ jobs.length - 1) ≤ U := by
    rw [hlen, maskOutCost_ones]
    exact hU
  obtain ⟨μN, hμNr, hμNf, hresN, _⟩ :=
    solveNaiveDetailed_min jobs costs m U hlen hn hm
      ⟨2 ^ jobs.length - 1, hones, honesf⟩
  have hperm : ∀ ν : Nat,
      List.Perm ((wsptSequence (maskInhouse jobs ν) m).map Job.id ++
        (maskOutsourced jobs ν).map Job.id) (jobs.map Job.id) := by
    intro ν
    refine List.Perm.trans
      (List.Perm.append ((wsptSequence_perm _ m).map Job.id)
        (List.Perm.refl _)) ?_
    rw [← List.map_append]
    exact (mask_partition_perm jobs ν).map Job.id
  have horder : (if (maskInhouse jobs μ).isEmpty then ([] : List Job)
      else wsptSequence (maskInhouse jobs μ) m) =
      wsptSequence (maskInhouse jobs μ) m := by
    by_cases h : (maskInhouse jobs μ).isEmpty
    · rw [if_pos h, List.isEmpty_iff.mp h, wsptSequence_nil]
    · rw [if_neg h]
  refine ⟨maskRecord jobs costs m μN, _, hresN, hDP, ?_⟩
  intro r hr
  have hr2 : r = maskRecord jobs costs m μN ∨
      r = ⟨if (maskInhouse jobs μ).isEmpty then
          oracleObjective (maskInhouse jobs μ) m
        else oracleObjective (maskInhouse jobs μ) m,
        if (maskInhouse jobs μ).isEmpty then []
        else wsptSequence (maskInhouse jobs μ) m,
        jobs.filter fun j =>
          decide (j.id ∉ (maskInhouse jobs μ).map Job.id),
        ((jobs.zip costs).filter fun jc =>
          decide (jc.1.id ∉ (maskInhouse jobs μ).map Job.id)).foldl
          (fun s jc => s + jc.2) 0⟩ := by
    rcases List.mem_cons.mp hr with h | h
    · exact Or.inl h
    · rcases List.mem_cons.mp h with h2 | h2
      · exact Or.inr h2
      · exact absurd h2 (List.not_mem_nil r)
  rcases hr2 with h | h
  · subst h
    refine ⟨hperm μN, ?_, hμNf⟩
    rw [show (maskRecord jobs costs m μN).outsourced =
      maskOutsourced jobs μN from rfl,
      show (maskRecord jobs costs m μN).outsourcingCost =
        maskOutCost costs μN from rfl]
    exact (sumCostsOf_maskOutsourced jobs costs μN hlen hnd).symm
  · subst h
    simp only [horder, dp_outsourced_filter jobs μ hnd,
      dp_outcost_foldl jobs costs μ hlen hnd]
    exact ⟨hperm μ,
      (sumCostsOf_maskOutsourced jobs costs μ hlen hnd).symm, hcost'⟩

/-- C1 counterexample: an in-scope three-job instance (matching
non-negative costs, m = 1, U = 1) where the exhaustive selector reports
objective 5 but the DP selector reports objective 6. -/
theorem selectors_disagree_cex :
    (([Job.mk 0 1 2, Job.mk 1 2 1, Job.mk 2 2 1].length < 63) ∧
      (∀ c ∈ [(1 : Int), 1, 2], 0 ≤ c) ∧ (1 : Int) ≤ 1 ∧ (0 : Int) ≤ 1) ∧
    (solveNaiveDetailed [Job.mk 0 1 2, Job.mk 1 2 1, Job.mk 2 2 1]
      [1, 1, 2] 1 1).map NaiveResult.objective = .ok 5 ∧
    (solveDP [Job.mk 0 1 2, Job.mk 1 2 1, Job.mk 2 2 1]
      [1, 1, 2] 1 1).map NaiveResult.objective = .ok 6 :=
  ⟨⟨by decide, by decide, by decide, by decide⟩, by decide, by decide⟩

/-- The one-sided bound instantiated on the C1 counterexample
instance. -/
theorem naive_le_dp_objective_witness :
    (([Job.mk 0 1 2, Job.mk 1 2 1, Job.mk 2 2 1].length < 63) ∧
      [Job.mk 0 1 2, Job.mk 1 2 1, Job.mk 2 2 1].length =
        [(1 : Int), 1, 2].length ∧
      (∀ c ∈ [(1 : Int), 1, 2], 0 ≤ c) ∧ (1 : Int) ≤ 1 ∧ (0 : Int) ≤ 1) ∧
    ∃ rN rD,
      solveNaiveDetailed [Job.mk 0 1 2, Job.mk 1 2 1, Job.mk 2 2 1]
        [1, 1, 2] 1 1 = .ok rN ∧
      solveDP [Job.mk 0 1 2, Job.mk 1 2 1, Job.mk 2 2 1]
        [1, 1, 2] 1 1 = .ok rD ∧
      rN.objective ≤ rD.objective :=
  ⟨⟨by decide, by decide, by decide, by decide, by decide⟩,
    naive_le_dp_objective _ _ 1 1 (by decide) (by decide) (by decide)
      (by decide) (by decide)⟩

/-- C5 counterexample: one job with cost 5 and budget 0 (every cost
exceeds the budget): both selectors keep the job in-house with
objective 1 — not an empty in-house set with objective 0. -/
theorem allCostsExceedBudget_cex :
    ((0 : Int) ≤ 0 ∧ ∀ c ∈ [(5 : Int)], 0 < c) ∧
    solveNaiveDetailed [Job.mk 0 1 1] [5] 1 0 =
      .ok ⟨1, [Job.mk 0 1 1], [], 0⟩ ∧
    solveDP [Job.mk 0 1 1] [5] 1 0 = .ok ⟨1, [Job.mk 0 1 1], [], 0⟩ :=
  ⟨⟨by decide, by decide⟩, by decide, by decide⟩

/-- Witness for the amended C5 on the same instance. -/
theorem allCostsExceedBudget_allInhouse_witness :
    (([Job.mk 0 1 1].length < 63) ∧
      [Job.mk 0 1 1].length = [(5 : Int)].length ∧ (1 : Int) ≤ 1 ∧
      (0 : Int) ≤ 0 ∧ ∀ c ∈ [(5 : Int)], (0 : Int) < c) ∧
    (solveNaiveDetailed [Job.mk 0 1 1] [5] 1 0 =
      .ok ⟨oracleObjective [Job.mk 0 1 1] 1,
        wsptSequence [Job.mk 0 1 1] 1, [], 0⟩ ∧
    solveDP [Job.mk 0 1 1] [5] 1 0 =
      .ok ⟨oracleObjective [Job.mk 0 1 1] 1,
        wsptSequence [Job.mk 0 1 1] 1, [], 0⟩) :=
  ⟨⟨by decide, by decide, by decide, by decide, by decide⟩,
    allCostsExceedBudget_allInhouse _ _ 1 0 (by decide) (by decide)
      (by decide) (by decide) (by decide)⟩

/-- C6 counterexample: the DP selector's objective rises from 5 to 6
when the budget rises from 1 to 2 on a fixed valid instance. -/
theorem dp_objective_not_monotone_cex :
    ((0 : Int) ≤ 1 ∧ (1 : Int) ≤ 2) ∧
    (solveDP [Job.mk 0 1 2, Job.mk 1 2 1, Job.mk 2 2 1]
      [2, 1, 3] 1 1).map NaiveResult.objective = .ok 5 ∧
    (solveDP [Job.mk 0 1 2, Job.mk 1 2 1, Job.mk 2 2 1]
      [2, 1, 3] 1 2).map NaiveResult.objective = .ok 6 :=
  ⟨⟨by decide, by decide⟩, by decide, by decide⟩

/-- The exhaustive selector's monotonicity instantiated on a concrete
instance. -/
theorem naive_objective_monotone_witness :
    (([Job.mk 0 1 2, Job.mk 1 2 1, Job.mk 2 2 1].length < 63) ∧
      [Job.mk 0 1 2, Job.mk 1 2 1, Job.mk 2 2 1].length =
        [(2 : Int), 1, 3].length ∧ (1 : Int) ≤ 1 ∧ (0 : Int) ≤ 1 ∧
      (1 : Int) ≤ 2) ∧
    ∃ r₁ r₂,
      solveNaiveDetailed [Job.mk 0 1 2, Job.mk 1 2 1, Job.mk 2 2 1]
        [2, 1, 3] 1 1 = .ok r₁ ∧
      solveNaiveDetailed [Job.mk 0 1 2, Job.mk 1 2 1, Job.mk 2 2 1]
        [2, 1, 3] 1 2 = .ok r₂ ∧
      r₂.objective ≤ r₁.objective :=
  ⟨⟨by decide, by decide, by decide, by decide, by decide⟩,
    naive_objective_monotone _ _ 1 1 2 (by decide) (by decide) (by decide)
      (by decide) (by decide)⟩

/-- C7 counterexample: on a one-job instance with cost 5 and budget -1
(no negative cost anywhere), the exhaustive selector accepts the input
and returns its fallback, while the DP selector rejects it with an
invalid-argument error: the DP selector's validation is not the
exhaustive selector's validation plus negative-cost rejection. -/
theorem dp_validation_differs_cex :
    (∀ c ∈ [(5 : Int)], 0 ≤ c) ∧
    solveNaiveDetailed [Job.mk 0 1 1] [5] 1 (-1) =
      .ok ⟨0, [], [Job.mk 0 1 1], 5⟩ ∧
    solveDP [Job.mk 0 1 1] [5] 1 (-1) =
      .error (.invalidArgument "U must be non-negative") :=
  ⟨by decide, by decide, by decide⟩

/-- Witness for the amended C7 on a concrete instance (mismatched
lengths, so both selectors reject). -/
theorem selectors_invalidArg_characterization_witness :
    ((1 : Int) ≤ 1) ∧
    ((failsInvalidArg (solveNaiveDetailed [Job.mk 0 1 1] [] 1 0) = true ↔
      ([Job.mk 0 1 1].length ≠ ([] : List Int).length ∨
        63 ≤ [Job.mk 0 1 1].length)) ∧
     (failsInvalidArg (solveDP [Job.mk 0 1 1] [] 1 0) = true ↔
      ([Job.mk 0 1 1].length ≠ ([] : List Int).length ∨ (0 : Int) < 0 ∨
        ∃ c ∈ ([] : List Int), c < 0))) :=
  ⟨by decide,
    selectors_invalidArg_characterization [Job.mk 0 1 1] [] 1 0 (by decide)⟩

/-- Witness for C9 on a concrete three-job instance. -/
theorem selectors_partition_exact_witness :
    ((([Job.mk 0 1 2, Job.mk 1 2 1, Job.mk 2 2 1].map Job.id).Nodup) ∧
      ([Job.mk 0 1 2, Job.mk 1 2 1, Job.mk 2 2 1].length < 63) ∧
      [Job.mk 0 1 2, Job.mk 1 2 1, Job.mk 2 2 1].length =
        [(1 : Int), 1, 2].length ∧
      (∀ c ∈ [(1 : Int), 1, 2], 0 ≤ c) ∧ (1 : Int) ≤ 1 ∧ (0 : Int) ≤ 1) ∧
    ∃ rN rD,
      solveNaiveDetailed [Job.mk 0 1 2, Job.mk 1 2 1, Job.mk 2 2 1]
        [1, 1, 2] 1 1 = .ok rN ∧
      solveDP [Job.mk 0 1 2, Job.mk 1 2 1, Job.mk 2 2 1]
        [1, 1, 2] 1 1 = .ok rD ∧
      ∀ r ∈ [rN, rD],
        List.Perm (r.inhouseOrder.map Job.id ++ r.outsourced.map Job.id)
          ([Job.mk 0 1 2, Job.mk 1 2 1, Job.mk 2 2 1].map Job.id) ∧
        r.outsourcingCost = sumCostsOf
          [Job.mk 0 1 2, Job.mk 1 2 1, Job.mk 2 2 1] [1, 1, 2]
          (r.outsourced.map Job.id) ∧
        r.outsourcingCost ≤ 1 :=
  ⟨⟨by decide, by decide, by decide, by decide, by decide, by decide⟩,
    selectors_partition_exact _ _ 1 1 (by decide) (by decide) (by decide)
      (by decide) (by decide) (by decide)⟩

/-- C10 counterexample: with a negative cost (-5) alongside budget -4,
the exhaustive selector does not skip every subset: it returns a
non-fallback result with a non-empty in-house order and objective 1. -/
theorem negative_budget_fallback_cex :
    ((-4 : Int) < 0 ∧ [Job.mk 0 1 1, Job.mk 1 1 1].length < 63 ∧
      [Job.mk 0 1 1, Job.mk 1 1 1].length = [(-5 : Int), 3].length ∧
      (1 : Int) ≤ 1) ∧
    solveNaiveDetailed [Job.mk 0 1 1, Job.mk 1 1 1] [-5, 3] 1 (-4) =
      .ok ⟨1, [Job.mk 1 1 1], [Job.mk 0 1 1], -5⟩ :=
  ⟨⟨by decide, by decide, by decide, by decide⟩, by decide⟩

/-- Witness for the amended C10 on a concrete instance. -/
theorem negative_budget_fallback_witness :
    (([Job.mk 0 1 1].length < 63) ∧
      [Job.mk 0 1 1].length = [(5 : Int)].length ∧
      (∀ c ∈ [(5 : Int)], 0 ≤ c) ∧ (1 : Int) ≤ 1 ∧ (-1 : Int) < 0) ∧
    (solveNaiveDetailed [Job.mk 0 1 1] [5] 1 (-1) =
      .ok ⟨0, [], [Job.mk 0 1 1], [(5 : Int)].sum⟩ ∧
      (-1 : Int) < [(5 : Int)].sum) :=
  ⟨⟨by decide, by decide, by decide, by decide, by decide⟩,
    negative_budget_fallback _ _ 1 (-1) (by decide) (by decide) (by decide)
      (by decide) (by decide)⟩

end FlowShop
